import Mathlib

/-!
Verification of the document ingestion and hybrid-retrieval pipeline.

Shallow embedding of:
  * `src/lib/utils/chunking.ts` (normalizer, boundary chunker, heading
    context annotator),
  * the `hybrid_search_documents` SQL function (final version, the
    `CREATE OR REPLACE` migration that excludes null embeddings),
  * the upload route (`src/app/api/rooms/[roomId]/upload/route.ts`) and the
    embedding batch processor (`process-embeddings` POST handler).

Text is modelled as `List Char`.  JavaScript string primitives (`trim`,
`slice`, `substring`, `indexOf`, character indexing) are modelled with their
ECMAScript clamping semantics on `Int` indices.  Numeric scores are `Rat`
(the SQL `double precision` values; floating-point rounding is outside the
model).  External services (pgvector distance, tsvector match/rank, the
embedding provider, text extraction) are oracle parameters.
-/

/-- JavaScript whitespace (the subset relevant to the sources: `trim` and
`\s` agree on all of these). -/
def isWs (c : Char) : Bool :=
  c = ' ' ∨ c = '\t' ∨ c = '\n' ∨ c = '\r' ∨ c = '\x0b' ∨ c = '\x0c' ∨
  c = ' ' ∨ c = '　'

/-- Remove leading whitespace (left half of `String.prototype.trim`). -/
def trimLeft (l : List Char) : List Char := l.dropWhile isWs

/-- Remove trailing whitespace (right half of `String.prototype.trim`). -/
def trimRight (l : List Char) : List Char := (l.reverse.dropWhile isWs).reverse

/-- `String.prototype.trim`. -/
def jsTrim (l : List Char) : List Char := trimRight (trimLeft l)

/-- ECMAScript relative-index clamping used by `slice`. -/
def clampIdx (len : Nat) (i : Int) : Nat :=
  if i < 0 then (len + i).toNat else min i.toNat len

/-- `String.prototype.slice(s, e)` with ECMAScript negative-index
semantics. -/
def jsSlice (l : List Char) (s e : Int) : List Char :=
  (l.take (clampIdx l.length e)).drop (clampIdx l.length s)

/-- `text[i]`: `some` char when `i` is a valid index, otherwise `none`
(JavaScript `undefined`). -/
def jsCharAt (l : List Char) (i : Int) : Option Char :=
  if h : 0 ≤ i ∧ i.toNat < l.length then some (l.get ⟨i.toNat, h.2⟩) else none

/-- `String.prototype.indexOf(sub, from)`: the least index `≥ max(from,0)`
where `sub` occurs, or `-1`. -/
def occursAt (l sub : List Char) (i : Nat) : Bool :=
  (l.drop i).take sub.length = sub

def jsIndexOf (l sub : List Char) (start : Int) : Int :=
  match (List.range (l.length + 1)).find?
      (fun (i : Nat) => decide (start ≤ (i : Int)) && occursAt l sub i) with
  | some i => (i : Int)
  | none => -1

section TrimLemmas

theorem dropWhile_dropWhile (p : Char → Bool) (l : List Char) :
    (l.dropWhile p).dropWhile p = l.dropWhile p := by
  induction l with
  | nil => rfl
  | cons c t ih =>
    by_cases h : p c
    · simp [List.dropWhile, h, ih]
    · simp [List.dropWhile, h]

theorem trimLeft_head_not_ws (l : List Char) (c : Char) (t : List Char)
    (h : trimLeft l = c :: t) : isWs c = false := by
  induction l with
  | nil => simp [trimLeft] at h
  | cons a s ih =>
    by_cases ha : isWs a
    · exact ih (by simpa [trimLeft, List.dropWhile, ha] using h)
    · simp only [trimLeft, List.dropWhile, ha] at h
      simp only [Bool.not_eq_true] at ha
      cases h; simpa using ha

theorem trimRight_prefix (l : List Char) :
    ∃ suf, l = trimRight l ++ suf := by
  refine ⟨(l.reverse.takeWhile isWs).reverse, ?_⟩
  unfold trimRight
  have h : l.reverse.takeWhile isWs ++ l.reverse.dropWhile isWs = l.reverse :=
    List.takeWhile_append_dropWhile ..
  calc l = l.reverse.reverse := by simp
    _ = (l.reverse.takeWhile isWs ++ l.reverse.dropWhile isWs).reverse := by
          rw [h]
    _ = (l.reverse.dropWhile isWs).reverse ++ (l.reverse.takeWhile isWs).reverse := by
          rw [List.reverse_append]

theorem trimRight_trimLeft_comm (l : List Char) :
    trimLeft (trimRight (trimLeft l)) = trimRight (trimLeft l) := by
  cases h : trimRight (trimLeft l) with
  | nil => simp [trimLeft]
  | cons c t =>
    have hc : isWs c = false := by
      obtain ⟨suf, hsuf⟩ := trimRight_prefix (trimLeft l)
      rw [h] at hsuf
      cases hl : trimLeft l with
      | nil => rw [hl] at hsuf; simp at hsuf
      | cons a s =>
        have := trimLeft_head_not_ws l a s hl
        rw [hl] at hsuf
        have : a = c := by
          have := congrArg (fun x => x.head?) hsuf
          simpa using this
        subst this
        exact trimLeft_head_not_ws l a s hl
    simp [trimLeft, List.dropWhile, hc]

theorem trimRight_idem (l : List Char) :
    trimRight (trimRight l) = trimRight l := by
  unfold trimRight
  simp [dropWhile_dropWhile]

/-- `trim` is idempotent. -/
theorem jsTrim_idem (l : List Char) : jsTrim (jsTrim l) = jsTrim l := by
  unfold jsTrim
  rw [trimRight_trimLeft_comm, trimRight_idem]

theorem trimLeft_subset (l : List Char) : ∀ c ∈ trimLeft l, c ∈ l := by
  intro c hc
  exact (List.dropWhile_sublist isWs (l := l)).subset hc

theorem trimRight_subset (l : List Char) : ∀ c ∈ trimRight l, c ∈ l := by
  intro c hc
  unfold trimRight at hc
  rw [List.mem_reverse] at hc
  have := (List.dropWhile_sublist isWs (l := l.reverse)).subset hc
  simpa using this

theorem jsTrim_subset (l : List Char) : ∀ c ∈ jsTrim l, c ∈ l := by
  intro c hc
  exact trimLeft_subset l c (trimRight_subset (trimLeft l) c hc)

theorem dropWhile_ne_nil_of_exists (p : Char → Bool) (l : List Char)
    (h : ∃ c ∈ l, p c = false) : l.dropWhile p ≠ [] := by
  induction l with
  | nil => simp at h
  | cons a t ih =>
    by_cases ha : p a
    · simp only [List.dropWhile, ha]
      apply ih
      obtain ⟨c, hc, hpc⟩ := h
      rcases List.mem_cons.mp hc with rfl | hct
      · rw [ha] at hpc; cases hpc
      · exact ⟨c, hct, hpc⟩
    · simp [List.dropWhile, ha]

theorem trimLeft_exists_not_ws (l : List Char)
    (h : ∃ c ∈ l, isWs c = false) : ∃ c ∈ trimLeft l, isWs c = false := by
  induction l with
  | nil => simp at h
  | cons a t ih =>
    by_cases ha : isWs a
    · simp only [trimLeft, List.dropWhile, ha]
      apply ih
      obtain ⟨c, hc, hpc⟩ := h
      rcases List.mem_cons.mp hc with rfl | hct
      · rw [ha] at hpc; cases hpc
      · exact ⟨c, hct, hpc⟩
    · simp only [trimLeft, List.dropWhile, ha]
      exact ⟨a, by simp, by simpa using ha⟩

theorem trimRight_ne_nil_of_exists (l : List Char)
    (h : ∃ c ∈ l, isWs c = false) : trimRight l ≠ [] := by
  unfold trimRight
  intro hcon
  have : l.reverse.dropWhile isWs ≠ [] := by
    apply dropWhile_ne_nil_of_exists
    obtain ⟨c, hc, hpc⟩ := h
    exact ⟨c, by simpa using hc, hpc⟩
  exact this (by simpa using hcon)

theorem jsTrim_ne_nil_of_exists (l : List Char)
    (h : ∃ c ∈ l, isWs c = false) : jsTrim l ≠ [] := by
  unfold jsTrim
  exact trimRight_ne_nil_of_exists _ (trimLeft_exists_not_ws l h)

theorem jsTrim_exists_not_ws (l : List Char) (h : jsTrim l ≠ []) :
    ∃ c ∈ l, isWs c = false := by
  cases hl : jsTrim l with
  | nil => exact absurd hl h
  | cons c t =>
    have hmem : c ∈ l := jsTrim_subset l c (by rw [hl]; simp)
    have hc : isWs c = false := by
      unfold jsTrim at hl
      obtain ⟨suf, hsuf⟩ := trimRight_prefix (trimLeft l)
      rw [hl] at hsuf
      cases hlt : trimLeft l with
      | nil => rw [hlt] at hsuf; simp at hsuf
      | cons a s =>
        rw [hlt] at hsuf
        have : a = c := by
          have := congrArg (fun x => x.head?) hsuf
          simpa using this
        subst this
        exact trimLeft_head_not_ws l a s hlt
    exact ⟨c, hmem, hc⟩

theorem jsTrim_length_le (l : List Char) : (jsTrim l).length ≤ l.length := by
  unfold jsTrim trimRight trimLeft
  calc ((l.dropWhile isWs).reverse.dropWhile isWs).reverse.length
      = ((l.dropWhile isWs).reverse.dropWhile isWs).length := by simp
    _ ≤ (l.dropWhile isWs).reverse.length := (List.dropWhile_sublist _).length_le
    _ = (l.dropWhile isWs).length := by simp
    _ ≤ l.length := (List.dropWhile_sublist _).length_le

theorem jsSlice_length_le (l : List Char) (s e c : Int)
    (hse : s < e) (hec : e ≤ s + c) : ((jsSlice l s e).length : Int) ≤ c := by
  unfold jsSlice clampIdx
  have hlen : ∀ n, ((l.take n).drop (clampIdx l.length s)).length =
      min n l.length - clampIdx l.length s := by
    intro n; simp
  simp only [List.length_drop, List.length_take]
  by_cases hs : s < 0 <;> by_cases he : e < 0 <;>
    simp only [hs, he, if_true, if_false, reduceIte] <;> omega

end TrimLemmas

/-!
## Normalizer (the inline normalization in `splitIntoChunks` /
`addContextualHeaders`):
`text.split('\n').map(line => line.replace(/[ \t]+/g,' ').trim()).join('\n')
     .replace(/\n{3,}/g,'\n\n').trim()`
-/

/-- `line.replace(/[ \t]+/g, ' ')`: each maximal run of spaces/tabs becomes a
single space.  The boolean tracks whether the previous character was part of
such a run. -/
def collapseSpacesAux : Bool → List Char → List Char
  | _, [] => []
  | inRun, c :: rest =>
    if c = ' ' ∨ c = '\t' then
      if inRun then collapseSpacesAux true rest
      else ' ' :: collapseSpacesAux true rest
    else c :: collapseSpacesAux false rest

def collapseSpaces (l : List Char) : List Char := collapseSpacesAux false l

/-- `.replace(/\n{3,}/g, '\n\n')`: keep at most two consecutive newlines.
The counter is the number of newlines already emitted in the current run. -/
def collapseNewlinesAux : Nat → List Char → List Char
  | _, [] => []
  | k, c :: rest =>
    if c = '\n' then
      if k < 2 then '\n' :: collapseNewlinesAux (k + 1) rest
      else collapseNewlinesAux k rest
    else c :: collapseNewlinesAux 0 rest

def collapseNewlines (l : List Char) : List Char := collapseNewlinesAux 0 l

/-- `String.prototype.split('\n')`. -/
def splitLines : List Char → List (List Char)
  | [] => [[]]
  | c :: rest =>
    if c = '\n' then [] :: splitLines rest
    else
      match splitLines rest with
      | [] => [[c]]
      | ln :: lns => (c :: ln) :: lns

/-- `Array.prototype.join('\n')`. -/
def joinLines : List (List Char) → List Char
  | [] => []
  | [ln] => ln
  | ln :: lns => ln ++ '\n' :: joinLines lns

/-- The whitespace normalization performed inline by `splitIntoChunks`,
`splitIntoChunksWithPositions` and `addContextualHeaders`. -/
def normalizeText (l : List Char) : List Char :=
  jsTrim (collapseNewlines (joinLines
    ((splitLines l).map (fun ln => jsTrim (collapseSpaces ln)))))

/-!
## Boundary finders (`findMarkdownHeading`, `findSentenceEnd`,
`findWordBoundary`)
-/

/-- The regex test `^#{1,3}\s+`: one to three `#` characters followed by a
whitespace character. -/
def startsWithHeadingMarker : List Char → Bool
  | '#' :: c₁ :: rest =>
    if isWs c₁ then true
    else if c₁ = '#' then
      match rest with
      | c₂ :: rest₂ =>
        if isWs c₂ then true
        else if c₂ = '#' then
          match rest₂ with
          | c₃ :: _ => isWs c₃
          | [] => false
        else false
      | [] => false
    else false
  | _ => false

/-- The lines of a list of lines annotated with their character offsets:
line `i` starts at `lines.slice(0, i).join('\n').length + (i > 0 ? 1 : 0)`,
i.e. offsets accumulate `length + 1` per preceding line. -/
def withOffsets : Int → List (List Char) → List (List Char × Int)
  | _, [] => []
  | off, ln :: rest => (ln, off) :: withOffsets (off + ln.length + 1) rest

/-- The backward scan of `findMarkdownHeading`: walk the (reversed) lines of
`text.substring(0, targetIndex)`; stop with `-1` as soon as a line start is
`≤ minIndex`; otherwise return the first line (from the end) whose trimmed
text matches `^#{1,3}\s+`. -/
def headingScan : List (List Char × Int) → Int → Int
  | [], _ => -1
  | (ln, off) :: rest, minIndex =>
    if off ≤ minIndex then -1
    else if startsWithHeadingMarker (jsTrim ln) then off
    else headingScan rest minIndex

def findMarkdownHeading (text : List Char) (targetIndex minIndex : Int) : Int :=
  headingScan (withOffsets 0 (splitLines (text.take targetIndex.toNat))).reverse
    minIndex

/-- A sentence terminator for the regex `[.!?\n]`. -/
def isSentenceChar (c : Char) : Bool :=
  c = '.' ∨ c = '!' ∨ c = '?' ∨ c = '\n'

/-- The regex-exec loop of `findSentenceEnd`: scan matches left to right,
breaking at the first match with index `≥ targetIndex`, remembering
`index + 1` of the last match with index `> minIndex`. -/
def sentenceEndAux (targetIndex minIndex : Int) :
    List Char → Int → Int → Int
  | [], _, acc => acc
  | c :: rest, i, acc =>
    if targetIndex ≤ i then acc
    else sentenceEndAux targetIndex minIndex rest (i + 1)
      (if isSentenceChar c ∧ minIndex < i then i + 1 else acc)

def findSentenceEnd (text : List Char) (targetIndex minIndex : Int) : Int :=
  sentenceEndAux targetIndex minIndex text 0 (-1)

/-- The descending loop of `findWordBoundary`
(`for i = targetIndex; i > minIndex; i--`), with fuel
`(targetIndex - minIndex).toNat` counting the loop iterations. -/
def wordBoundaryAux (text : List Char) : Nat → Int → Int
  | 0, _ => -1
  | n + 1, i =>
    if (jsCharAt text i).elim false isWs then i
    else wordBoundaryAux text n (i - 1)

def findWordBoundary (text : List Char) (targetIndex minIndex : Int) : Int :=
  wordBoundaryAux text (targetIndex - minIndex).toNat targetIndex

/-!
## `splitIntoChunks`

The `while (startIndex < normalizedText.length)` loop of the source is not
structurally recursive (and, as proved below, genuinely fails to terminate
on some inputs), so it is modelled with fuel: `none` means the loop did not
finish within the given number of iterations.
-/

/-- One window's `endIndex`: tentative `startIndex + chunkSize`, moved back
to a heading, sentence or word boundary when the tentative end is strictly
inside the text. -/
def chunkEnd (text : List Char) (chunkSize : Int) (start : Int) : Int :=
  let e₀ := start + chunkSize
  if e₀ < (text.length : Int) then
    let h := findMarkdownHeading text e₀ start
    if h ≠ -1 then h
    else
      let s := findSentenceEnd text e₀ start
      if s ≠ -1 then s
      else
        let w := findWordBoundary text e₀ start
        if w ≠ -1 then w else e₀
  else e₀

/-- `const chunk = normalizedText.slice(startIndex, endIndex).trim();
if (chunk.length > 0) chunks.push(chunk)`. -/
def pushChunk (text : List Char) (chunkSize start : Int)
    (acc : List (List Char)) : List (List Char) :=
  if 0 < (jsTrim (jsSlice text start (chunkEnd text chunkSize start))).length
  then acc ++ [jsTrim (jsSlice text start (chunkEnd text chunkSize start))]
  else acc

def chunkLoop (text : List Char) (chunkSize overlap : Int) :
    Nat → Int → List (List Char) → Option (List (List Char))
  | 0, _, _ => none
  | fuel + 1, start, acc =>
    if start < (text.length : Int) then
      if (text.length : Int) ≤ chunkEnd text chunkSize start - overlap ∨
          (text.length : Int) ≤ chunkEnd text chunkSize start then
        some (pushChunk text chunkSize start acc)
      else
        chunkLoop text chunkSize overlap fuel
          (chunkEnd text chunkSize start - overlap)
          (pushChunk text chunkSize start acc)
    else some acc

def splitIntoChunksCore (text : List Char) (chunkSize overlap : Int)
    (fuel : Nat) : Option (List (List Char)) :=
  if jsTrim text = [] then some []
  else
    let norm := normalizeText text
    if (norm.length : Int) ≤ chunkSize then some [norm]
    else chunkLoop norm chunkSize overlap fuel 0 []

/-- `splitIntoChunks(text, chunkSize, overlap)` with enough fuel for every
terminating run that makes forward progress. -/
def splitIntoChunks (text : List Char) (chunkSize overlap : Int) :
    Option (List (List Char)) :=
  splitIntoChunksCore text chunkSize overlap (text.length + 1)

/-!
## Claim C6: termination of `splitIntoChunks`

The loop's only exit test is
`if (startIndex >= normalizedText.length || endIndex >= normalizedText.length) break`.
On `"AAAAAAA"` with `chunkSize = 5`, `overlap = 5` every iteration recomputes
`endIndex = 5` and resets `startIndex` to `0`, so neither disjunct ever
holds and the loop never terminates.
-/

def sevenAs : List Char := List.replicate 7 'A'

theorem chunkLoop_sevenAs_step (n : Nat) (acc : List (List Char)) :
    chunkLoop sevenAs 5 5 (n + 1) 0 acc =
      chunkLoop sevenAs 5 5 n 0 (acc ++ [List.replicate 5 'A']) := rfl

theorem chunkLoop_sevenAs_none :
    ∀ (n : Nat) (acc : List (List Char)), chunkLoop sevenAs 5 5 n 0 acc = none := by
  intro n
  induction n with
  | zero => intro acc; rfl
  | succ k ih =>
    intro acc
    rw [chunkLoop_sevenAs_step]
    exact ih _

/-- **C6** (code bug): `splitIntoChunks "AAAAAAA" 5 5` does not terminate —
for every amount of loop fuel the `while` loop of the source is still
running, because the state `startIndex = 0` repeats forever and the
loop's exit condition (`startIndex` or `endIndex` reaching the end of the
text) never fires.  This contradicts the claim that the loop stops whenever
the window end fails to advance past the previous start, for every
`targetSize > 0` and `overlap ≥ 0` including `overlap ≥ targetSize`. -/
theorem splitIntoChunks_sevenAs_diverges :
    ∀ fuel : Nat, splitIntoChunksCore sevenAs 5 5 fuel = none := by
  intro fuel
  have h : splitIntoChunksCore sevenAs 5 5 fuel = chunkLoop sevenAs 5 5 fuel 0 [] := by
    rfl
  rw [h, chunkLoop_sevenAs_none]

/-!
## Claim C8: the sentence-boundary scenario

`splitIntoChunks("Sentence one. Sentence two. Sentence three.", 15, 0)`
produces four chunks; the third one is `"Sentence"`, which ends at a word
boundary, not at the sentence terminator `'.'`.
-/

def sentenceText : List Char :=
  "Sentence one. Sentence two. Sentence three.".toList

/-- **C8** (counterexample): the third chunk of the claimed scenario does
not end at a sentence boundary: it is `"Sentence"`, ending in `'e'`. -/
theorem splitIntoChunks_sentenceText_not_all_sentence_bounded :
    splitIntoChunks sentenceText 15 0 =
      some ["Sentence one.".toList, "Sentence two.".toList,
        "Sentence".toList, "three.".toList] ∧
    "Sentence".toList.getLast? ≠ some '.' := by
  constructor
  · decide
  · decide

/-- **C8** (amended): the scenario yields exactly the four chunks
`"Sentence one."`, `"Sentence two."`, `"Sentence"`, `"three."`; the first,
second and fourth end at the sentence terminator `'.'`, the third ends at a
word boundary (a whole word, not a mid-word cut). -/
theorem splitIntoChunks_sentenceText_chunks :
    splitIntoChunks sentenceText 15 0 =
      some ["Sentence one.".toList, "Sentence two.".toList,
        "Sentence".toList, "three.".toList] ∧
    "Sentence one.".toList.getLast? = some '.' ∧
    "Sentence two.".toList.getLast? = some '.' ∧
    "three.".toList.getLast? = some '.' := by
  refine ⟨by decide, by decide, by decide, by decide⟩

/-!
## Claim C10: shape of every emitted chunk

Every chunk returned by `splitIntoChunks` is non-empty, trimmed, and of
length at most `chunkSize`.
-/

theorem jsTrim_head_not_ws (l : List Char) (c : Char) (t : List Char)
    (h : jsTrim l = c :: t) : isWs c = false := by
  unfold jsTrim at h
  obtain ⟨suf, hsuf⟩ := trimRight_prefix (trimLeft l)
  rw [h] at hsuf
  cases hlt : trimLeft l with
  | nil => rw [hlt] at hsuf; simp at hsuf
  | cons a s =>
    rw [hlt] at hsuf
    have hac : a = c := by
      have := congrArg (fun x => x.head?) hsuf
      simpa using this
    subst hac
    exact trimLeft_head_not_ws l a s hlt

theorem jsTrim_exists_of_exists (l : List Char)
    (h : ∃ c ∈ l, isWs c = false) : ∃ c ∈ jsTrim l, isWs c = false := by
  cases hl : jsTrim l with
  | nil => exact absurd hl (jsTrim_ne_nil_of_exists l h)
  | cons c t =>
    exact ⟨c, by simp, jsTrim_head_not_ws l c t hl⟩

theorem collapseSpacesAux_mem (b : Bool) (l : List Char) (c : Char)
    (hc : c ∈ l) (hw : isWs c = false) : c ∈ collapseSpacesAux b l := by
  induction l generalizing b with
  | nil => simp at hc
  | cons a t ih =>
    by_cases ha : a = ' ' ∨ a = '\t'
    · have hca : c ≠ a := by
        rintro rfl
        rcases ha with rfl | rfl <;> simp [isWs] at hw
      have hct : c ∈ t := by
        rcases List.mem_cons.mp hc with rfl | h
        · exact absurd rfl hca
        · exact h
      cases b with
      | true => simpa [collapseSpacesAux, ha] using ih true hct
      | false =>
        simp only [collapseSpacesAux, ha, if_true]
        exact List.mem_cons_of_mem _ (ih true hct)
    · rcases List.mem_cons.mp hc with rfl | h
      · simp [collapseSpacesAux, ha]
      · simp only [collapseSpacesAux, ha, if_false]
        exact List.mem_cons_of_mem _ (ih false h)

theorem collapseNewlinesAux_mem (k : Nat) (l : List Char) (c : Char)
    (hc : c ∈ l) (hnl : c ≠ '\n') : c ∈ collapseNewlinesAux k l := by
  induction l generalizing k with
  | nil => simp at hc
  | cons a t ih =>
    by_cases ha : a = '\n'
    · subst ha
      have hct : c ∈ t := by
        rcases List.mem_cons.mp hc with rfl | h
        · exact absurd rfl hnl
        · exact h
      by_cases hk : k < 2
      · simp only [collapseNewlinesAux, if_pos rfl, hk, if_true]
        exact List.mem_cons_of_mem _ (ih (k + 1) hct)
      · simpa [collapseNewlinesAux, hk] using ih k hct
    · rcases List.mem_cons.mp hc with rfl | h
      · simp [collapseNewlinesAux, ha]
      · simp only [collapseNewlinesAux, ha, if_false]
        exact List.mem_cons_of_mem _ (ih 0 h)

theorem splitLines_ne_nil (l : List Char) : splitLines l ≠ [] := by
  cases l with
  | nil => simp [splitLines]
  | cons c rest =>
    by_cases h : c = '\n'
    · simp [splitLines, h]
    · simp only [splitLines, h, if_false]
      cases splitLines rest <;> simp

theorem mem_joinLines_of_mem (lns : List (List Char)) (ln : List Char)
    (c : Char) (hln : ln ∈ lns) (hc : c ∈ ln) : c ∈ joinLines lns := by
  induction lns with
  | nil => simp at hln
  | cons hd tl ih =>
    cases tl with
    | nil =>
      rcases List.mem_cons.mp hln with rfl | h
      · simpa [joinLines]
      · simp at h
    | cons hd₂ tl₂ =>
      rcases List.mem_cons.mp hln with rfl | h
      · simp [joinLines, hc]
      · simp only [joinLines]
        simp only [List.mem_append, List.mem_cons]
        right; right
        simpa [joinLines] using ih h

theorem exists_line_of_mem (l : List Char) (c : Char) (hc : c ∈ l)
    (hnl : c ≠ '\n') : ∃ ln ∈ splitLines l, c ∈ ln := by
  induction l with
  | nil => simp at hc
  | cons a rest ih =>
    by_cases ha : a = '\n'
    · subst ha
      have hct : c ∈ rest := by
        rcases List.mem_cons.mp hc with rfl | h
        · exact absurd rfl hnl
        · exact h
      obtain ⟨ln, hln, hcln⟩ := ih hct
      exact ⟨ln, by simp [splitLines, hln], hcln⟩
    · simp only [splitLines, ha, if_false]
      rcases List.mem_cons.mp hc with rfl | h
      · cases hsp : splitLines rest with
        | nil => exact ⟨[c], by simp, by simp⟩
        | cons ln lns => exact ⟨c :: ln, by simp, by simp⟩
      · obtain ⟨ln, hln, hcln⟩ := ih h
        cases hsp : splitLines rest with
        | nil => rw [hsp] at hln; simp at hln
        | cons ln₀ lns =>
          rw [hsp] at hln
          rcases List.mem_cons.mp hln with rfl | hmem
          · exact ⟨a :: ln, by simp, by simp [hcln]⟩
          · exact ⟨ln, by simp [hmem], hcln⟩

/-- Normalization keeps at least one non-whitespace character, so the
normalized text of a text that does not trim to empty is non-empty. -/
theorem normalizeText_ne_nil (l : List Char) (h : jsTrim l ≠ []) :
    normalizeText l ≠ [] := by
  obtain ⟨c, hcl, hcw⟩ := jsTrim_exists_not_ws l h
  apply jsTrim_ne_nil_of_exists
  have hnl : c ≠ '\n' := by
    rintro rfl; simp [isWs] at hcw
  obtain ⟨ln, hln, hcln⟩ := exists_line_of_mem l c hcl hnl
  obtain ⟨d, hdmem, hdw⟩ :=
    jsTrim_exists_of_exists (collapseSpaces ln)
      ⟨c, collapseSpacesAux_mem false ln c hcln hcw, hcw⟩
  have hdnl : d ≠ '\n' := by
    rintro rfl; simp [isWs] at hdw
  have hjoin : d ∈ joinLines ((splitLines l).map
      (fun ln => jsTrim (collapseSpaces ln))) :=
    mem_joinLines_of_mem _ (jsTrim (collapseSpaces ln)) d
      (List.mem_map_of_mem _ hln) hdmem
  exact ⟨d, collapseNewlinesAux_mem 0 _ d hjoin hdnl, hdw⟩

/-- `normalizeText` output is already trimmed. -/
theorem normalizeText_trimmed (l : List Char) :
    jsTrim (normalizeText l) = normalizeText l := by
  unfold normalizeText
  exact jsTrim_idem _

theorem headingScan_bounds (entries : List (List Char × Int)) (m : Int)
    (h : headingScan entries m ≠ -1) :
    m < headingScan entries m ∧ ∃ p ∈ entries, p.2 = headingScan entries m := by
  induction entries with
  | nil => simp [headingScan] at h
  | cons p rest ih =>
    obtain ⟨ln, off⟩ := p
    by_cases hoff : off ≤ m
    · simp [headingScan, hoff] at h
    · by_cases hhd : startsWithHeadingMarker (jsTrim ln)
      · refine ⟨?_, ⟨(ln, off), by simp, ?_⟩⟩
        · simp only [headingScan, if_neg hoff, if_pos hhd]
          omega
        · simp [headingScan, hoff, hhd]
      · have h' : headingScan rest m ≠ -1 := by
          simpa [headingScan, hoff, hhd] using h
        obtain ⟨h₁, p', hp', hp2⟩ := ih h'
        refine ⟨?_, ⟨p', by simp [hp'], ?_⟩⟩
        · simpa [headingScan, hoff, hhd] using h₁
        · simpa [headingScan, hoff, hhd] using hp2

theorem withOffsets_le (lns : List (List Char)) (off : Int)
    (p : List Char × Int) (hp : p ∈ withOffsets off lns) :
    off ≤ p.2 ∧ p.2 + p.1.length ≤ off + (joinLines lns).length := by
  induction lns generalizing off with
  | nil => simp [withOffsets] at hp
  | cons ln rest ih =>
    simp only [withOffsets, List.mem_cons] at hp
    rcases hp with rfl | hp
    · refine ⟨le_refl _, ?_⟩
      cases rest with
      | nil => simp [joinLines]
      | cons r rs =>
        have hlen : (joinLines (ln :: r :: rs)).length =
            ln.length + 1 + (joinLines (r :: rs)).length := by
          simp only [joinLines, List.length_append, List.length_cons]
          omega
        simp only [hlen]
        have : (0 : Int) ≤ (joinLines (r :: rs)).length := by positivity
        push_cast
        omega
    · obtain ⟨h₁, h₂⟩ := ih (off + ln.length + 1) hp
      cases rest with
      | nil => simp [withOffsets] at hp
      | cons r rs =>
        have hlen : (joinLines (ln :: r :: rs)).length =
            ln.length + 1 + (joinLines (r :: rs)).length := by
          simp only [joinLines, List.length_append, List.length_cons]
          omega
        constructor
        · have : (0 : Int) ≤ ln.length := by positivity
          omega
        · simp only [hlen]
          push_cast
          omega

theorem splitLines_join (l : List Char) : joinLines (splitLines l) = l := by
  induction l with
  | nil => simp [splitLines, joinLines]
  | cons c rest ih =>
    by_cases hc : c = '\n'
    · subst hc
      simp only [splitLines, if_pos rfl]
      cases hsp : splitLines rest with
      | nil => exact absurd hsp (splitLines_ne_nil rest)
      | cons ln lns =>
        rw [hsp] at ih
        simpa [joinLines] using ih
    · simp only [splitLines, hc, if_false]
      cases hsp : splitLines rest with
      | nil => exact absurd hsp (splitLines_ne_nil rest)
      | cons ln lns =>
        rw [hsp] at ih
        cases lns with
        | nil => simpa [joinLines] using ih
        | cons l₂ ls => simpa [joinLines] using ih

theorem findMarkdownHeading_bounds (text : List Char) (t m : Int)
    (h : findMarkdownHeading text t m ≠ -1) :
    m < findMarkdownHeading text t m ∧ findMarkdownHeading text t m ≤ t := by
  by_cases ht : t < 0
  · exfalso
    apply h
    have htoNat : t.toNat = 0 := by omega
    unfold findMarkdownHeading
    rw [htoNat]
    by_cases hm : (0 : Int) ≤ m
    · simp [splitLines, withOffsets, headingScan, hm]
    · simp [splitLines, withOffsets, headingScan, hm, jsTrim, trimLeft,
        trimRight, startsWithHeadingMarker]
  · obtain ⟨h₁, p, hp, hp2⟩ := headingScan_bounds _ m h
    refine ⟨h₁, ?_⟩
    rw [List.mem_reverse] at hp
    obtain ⟨hge, hle⟩ := withOffsets_le _ 0 p hp
    rw [splitLines_join] at hle
    have hlen : (text.take t.toNat).length ≤ t.toNat := by
      simp [List.length_take]
    have hp2' : p.2 ≤ ((text.take t.toNat).length : Int) := by
      have hplen : (0 : Int) ≤ p.1.length := by positivity
      omega
    unfold findMarkdownHeading
    rw [← hp2]
    have hcast : ((text.take t.toNat).length : Int) ≤ (t.toNat : Int) := by
      exact_mod_cast hlen
    have ht' : (t.toNat : Int) = t := by omega
    omega

theorem sentenceEndAux_bounds (t m : Int) (l : List Char) (i acc : Int)
    (hacc : acc ≠ -1 → m < acc ∧ acc ≤ t)
    (h : sentenceEndAux t m l i acc ≠ -1) :
    m < sentenceEndAux t m l i acc ∧ sentenceEndAux t m l i acc ≤ t := by
  induction l generalizing i acc with
  | nil => exact hacc (by simpa [sentenceEndAux] using h)
  | cons c rest ih =>
    by_cases hti : t ≤ i
    · simp only [sentenceEndAux, if_pos hti] at h ⊢
      exact hacc h
    · simp only [sentenceEndAux, if_neg hti] at h ⊢
      apply ih _ _ _ h
      intro hne
      by_cases hcond : isSentenceChar c ∧ m < i
      · simp only [if_pos hcond]
        exact ⟨by omega, by omega⟩
      · simp only [if_neg hcond] at hne ⊢
        exact hacc hne

theorem findSentenceEnd_bounds (text : List Char) (t m : Int)
    (h : findSentenceEnd text t m ≠ -1) :
    m < findSentenceEnd text t m ∧ findSentenceEnd text t m ≤ t := by
  unfold findSentenceEnd at *
  exact sentenceEndAux_bounds t m text 0 (-1) (by intro hc; exact absurd rfl hc) h

theorem wordBoundaryAux_bounds (text : List Char) (n : Nat) (i : Int)
    (h : wordBoundaryAux text n i ≠ -1) :
    i - n < wordBoundaryAux text n i ∧ wordBoundaryAux text n i ≤ i := by
  induction n generalizing i with
  | zero => simp [wordBoundaryAux] at h
  | succ k ih =>
    by_cases hc : (jsCharAt text i).elim false isWs
    · simp only [wordBoundaryAux, if_pos hc]
      constructor
      · push_cast; omega
      · exact le_refl _
    · simp only [wordBoundaryAux, if_neg hc] at h ⊢
      obtain ⟨h₁, h₂⟩ := ih (i - 1) h
      constructor
      · push_cast at h₁ ⊢; omega
      · omega

theorem findWordBoundary_bounds (text : List Char) (t m : Int)
    (h : findWordBoundary text t m ≠ -1) :
    m < findWordBoundary text t m ∧ findWordBoundary text t m ≤ t := by
  unfold findWordBoundary at *
  obtain ⟨h₁, h₂⟩ := wordBoundaryAux_bounds text (t - m).toNat t h
  refine ⟨?_, h₂⟩
  by_cases htm : m < t
  · have : ((t - m).toNat : Int) = t - m := by omega
    omega
  · exfalso
    have : (t - m).toNat = 0 := by omega
    rw [this] at h
    simp [wordBoundaryAux] at h

/-- The adjusted window end lies strictly after `start` and at most
`start + chunkSize`. -/
theorem chunkEnd_bounds (text : List Char) (c start : Int) (hc : 0 < c) :
    start < chunkEnd text c start ∧ chunkEnd text c start ≤ start + c := by
  unfold chunkEnd
  by_cases he : start + c < (text.length : Int)
  · simp only [if_pos he]
    by_cases hh : findMarkdownHeading text (start + c) start ≠ -1
    · simp only [if_pos hh]
      exact findMarkdownHeading_bounds text (start + c) start hh
    · simp only [if_neg hh]
      by_cases hs : findSentenceEnd text (start + c) start ≠ -1
      · simp only [if_pos hs]
        exact findSentenceEnd_bounds text (start + c) start hs
      · simp only [if_neg hs]
        by_cases hw : findWordBoundary text (start + c) start ≠ -1
        · simp only [if_pos hw]
          exact findWordBoundary_bounds text (start + c) start hw
        · simp only [if_neg hw]
          omega
  · simp only [if_neg he]
    omega

theorem pushChunk_good (text : List Char) (c start : Int) (hc : 0 < c)
    (acc : List (List Char))
    (hacc : ∀ ch ∈ acc, ch ≠ [] ∧ jsTrim ch = ch ∧ (ch.length : Int) ≤ c) :
    ∀ ch ∈ pushChunk text c start acc,
      ch ≠ [] ∧ jsTrim ch = ch ∧ (ch.length : Int) ≤ c := by
  unfold pushChunk
  by_cases hlen :
      0 < (jsTrim (jsSlice text start (chunkEnd text c start))).length
  · rw [if_pos hlen]
    intro ch hch
    rcases List.mem_append.mp hch with h | h
    · exact hacc ch h
    · have hch' : ch = jsTrim (jsSlice text start (chunkEnd text c start)) := by
        simpa using h
      subst hch'
      obtain ⟨he₁, he₂⟩ := chunkEnd_bounds text c start hc
      refine ⟨?_, jsTrim_idem _, ?_⟩
      · intro hnil
        rw [hnil] at hlen
        simp at hlen
      · calc ((jsTrim (jsSlice text start (chunkEnd text c start))).length : Int)
            ≤ ((jsSlice text start (chunkEnd text c start)).length : Int) := by
              exact_mod_cast jsTrim_length_le _
          _ ≤ c := jsSlice_length_le text start (chunkEnd text c start) c he₁ he₂
  · rw [if_neg hlen]
    exact hacc

theorem chunkLoop_good (text : List Char) (c o : Int) (hc : 0 < c) :
    ∀ (fuel : Nat) (start : Int) (acc res : List (List Char)),
      (∀ ch ∈ acc, ch ≠ [] ∧ jsTrim ch = ch ∧ (ch.length : Int) ≤ c) →
      chunkLoop text c o fuel start acc = some res →
      ∀ ch ∈ res, ch ≠ [] ∧ jsTrim ch = ch ∧ (ch.length : Int) ≤ c := by
  intro fuel
  induction fuel with
  | zero =>
    intro start acc res hacc hres
    simp [chunkLoop] at hres
  | succ k ih =>
    intro start acc res hacc hres
    rw [chunkLoop] at hres
    by_cases hstart : start < (text.length : Int)
    · rw [if_pos hstart] at hres
      by_cases hstop : (text.length : Int) ≤ chunkEnd text c start - o ∨
          (text.length : Int) ≤ chunkEnd text c start
      · rw [if_pos hstop] at hres
        cases hres
        exact pushChunk_good text c start hc acc hacc
      · rw [if_neg hstop] at hres
        exact ih _ _ _ (pushChunk_good text c start hc acc hacc) hres
    · rw [if_neg hstart] at hres
      cases hres
      exact hacc

/-- **C10**: every chunk returned by `splitIntoChunks` (for any fuel, any
positive `chunkSize` and any `overlap`) is non-empty, equal to its own
trim, and of length at most `chunkSize`. -/
theorem splitIntoChunks_chunk_shape (text : List Char) (c o : Int)
    (fuel : Nat) (res : List (List Char)) (hc : 0 < c)
    (hres : splitIntoChunksCore text c o fuel = some res) :
    ∀ ch ∈ res, ch ≠ [] ∧ jsTrim ch = ch ∧ (ch.length : Int) ≤ c := by
  unfold splitIntoChunksCore at hres
  by_cases hempty : jsTrim text = []
  · rw [if_pos hempty] at hres
    cases hres
    intro ch hch
    simp at hch
  · rw [if_neg hempty] at hres
    by_cases hshort : ((normalizeText text).length : Int) ≤ c
    · rw [if_pos hshort] at hres
      cases hres
      intro ch hch
      have hch' : ch = normalizeText text := by simpa using hch
      subst hch'
      exact ⟨normalizeText_ne_nil text hempty, normalizeText_trimmed text, hshort⟩
    · rw [if_neg hshort] at hres
      exact chunkLoop_good (normalizeText text) c o hc fuel 0 [] res
        (by intro ch hch; simp at hch) hres

/-- **C10 witness**: concrete instantiation — chunking
`"Sentence one. Sentence two. Sentence three."` at size 15 produces the
chunk `"Sentence one."`, which is non-empty, trimmed, and within the size
bound. -/
theorem splitIntoChunks_chunk_shape_witness :
    "Sentence one.".toList ≠ [] ∧
      jsTrim "Sentence one.".toList = "Sentence one.".toList ∧
      (("Sentence one.".toList.length : Int) ≤ 15) :=
  splitIntoChunks_chunk_shape sentenceText 15 0 (sentenceText.length + 1)
    ["Sentence one.".toList, "Sentence two.".toList,
      "Sentence".toList, "three.".toList]
    (by decide) (by decide) "Sentence one.".toList (by decide)

/-!
## Heading Context Annotator (`extractHeadings`, `findPrecedingHeadings`,
`buildContextualHeader`, `addContextualHeaders`)
-/

/-- One parsed heading (in-memory only). -/
structure HeadingInfo where
  level : Nat
  text : List Char
  position : Int
deriving DecidableEq

/-- The match `trimmedLine.match(/^#{k}\s+(.+)/)` for `k = 1, 2, 3`,
returning the captured group.  On the trimmed lines this is applied to, the
capture is everything after the maximal whitespace run following the `#`s
(the regex backtracking corner case of an all-whitespace tail cannot occur
on a trimmed line, and yields `none` here). -/
def headingMatch (k : Nat) (l : List Char) : Option (List Char) :=
  if l.take k = List.replicate k '#' then
    match l.drop k with
    | c :: rest =>
      if isWs c then
        if (rest.dropWhile isWs) = [] then none
        else some ((c :: rest).dropWhile isWs)
      else none
    | [] => none
  else none

/-- The line classification of `extractHeadings`: `h3Match` is tested first,
then `h2Match`, then `h1Match`. -/
def headingOfLine (pos : Int) (line : List Char) : List HeadingInfo :=
  match headingMatch 3 (jsTrim line) with
  | some cap => [⟨3, cap, pos⟩]
  | none =>
    match headingMatch 2 (jsTrim line) with
    | some cap => [⟨2, cap, pos⟩]
    | none =>
      match headingMatch 1 (jsTrim line) with
      | some cap => [⟨1, cap, pos⟩]
      | none => []

def extractHeadingsAux : Int → List (List Char) → List HeadingInfo
  | _, [] => []
  | pos, line :: rest =>
    headingOfLine pos line ++ extractHeadingsAux (pos + line.length + 1) rest

def extractHeadings (text : List Char) : List HeadingInfo :=
  extractHeadingsAux 0 (splitLines text)

/-- The backward scan of `findPrecedingHeadings` (`for i = length-1; i ≥ 0;
i--`), skipping headings at or after `position` and recording the first
heading found for each level.  The source's early exit once all three levels
are found is a no-op semantically (a set slot is never overwritten) and is
omitted. -/
def precedingScan : List HeadingInfo → Int →
    Option (List Char) → Option (List Char) → Option (List Char) →
    Option (List Char) × Option (List Char) × Option (List Char)
  | [], _, h1, h2, h3 => (h1, h2, h3)
  | h :: rest, pos, h1, h2, h3 =>
    if pos ≤ h.position then precedingScan rest pos h1 h2 h3
    else if h.level = 3 ∧ h3 = none then
      precedingScan rest pos h1 h2 (some h.text)
    else if h.level = 2 ∧ h2 = none then
      precedingScan rest pos h1 (some h.text) h3
    else if h.level = 1 ∧ h1 = none then
      precedingScan rest pos (some h.text) h2 h3
    else precedingScan rest pos h1 h2 h3

def findPrecedingHeadings (headings : List HeadingInfo) (position : Int) :
    Option (List Char) × Option (List Char) × Option (List Char) :=
  precedingScan headings.reverse position none none none

def buildContextualHeader (h2 h3 : Option (List Char))
    (chunkStartsWithHeading : Bool) : List Char :=
  if chunkStartsWithHeading then []
  else
    (match h2 with
     | some t => '#' :: '#' :: ' ' :: t ++ ['\n']
     | none => []) ++
    (match h3 with
     | some t => '#' :: '#' :: '#' :: ' ' :: t ++ ['\n']
     | none => []) ++
    (if h2 = none ∧ h3 = none then [] else ['\n'])

/-- The `chunks.map` body of `addContextualHeaders`, with the mutable
`searchStartPos` made explicit. -/
def addCtxGo (norm : List Char) (hs : List HeadingInfo) :
    Int → List (List Char) → List (List Char)
  | _, [] => []
  | searchStart, chunk :: rest =>
    if jsIndexOf norm chunk searchStart = -1 then
      chunk :: addCtxGo norm hs searchStart rest
    else
      (buildContextualHeader
          (findPrecedingHeadings hs (jsIndexOf norm chunk searchStart)).2.1
          (findPrecedingHeadings hs (jsIndexOf norm chunk searchStart)).2.2
          (startsWithHeadingMarker (jsTrim chunk)) ++ chunk) ::
        addCtxGo norm hs (jsIndexOf norm chunk searchStart + 1) rest

def addContextualHeaders (chunks : List (List Char))
    (originalText : List Char) : List (List Char) :=
  if 100000 < originalText.length ∨ 300 < chunks.length then chunks
  else if extractHeadings (normalizeText originalText) = [] then chunks
  else
    addCtxGo (normalizeText originalText)
      (extractHeadings (normalizeText originalText)) 0 chunks

theorem addCtxGo_heading_unchanged (norm : List Char) (hs : List HeadingInfo) :
    ∀ (chunks : List (List Char)) (st : Int) (i : Nat) (c : List Char),
      chunks[i]? = some c → startsWithHeadingMarker (jsTrim c) = true →
      (addCtxGo norm hs st chunks)[i]? = some c := by
  intro chunks
  induction chunks with
  | nil =>
    intro st i c hc _
    simp at hc
  | cons ch rest ih =>
    intro st i c hc hsw
    cases i with
    | zero =>
      have hch : ch = c := by simpa using hc
      subst hch
      unfold addCtxGo
      by_cases hidx : jsIndexOf norm ch st = -1
      · simp [hidx]
      · simp only [hidx, if_neg, ite_false, hsw, buildContextualHeader,
          if_true, List.nil_append]
        simp [hsw, buildContextualHeader]
    | succ j =>
      have hrest : rest[j]? = some c := by simpa using hc
      unfold addCtxGo
      by_cases hidx : jsIndexOf norm ch st = -1
      · simpa [hidx] using ih st j c hrest hsw
      · simpa [hidx] using ih (jsIndexOf norm ch st + 1) j c hrest hsw

/-- **C9**: on the document `"## A\nfoo\n### B\nbar"` the annotator prefixes
the chunk `"bar"` with both its nearest preceding level-2 heading (`## A`)
and its nearest preceding level-3 heading (`### B`), followed by a blank
line; and a chunk whose own (trimmed) text already starts with a markdown
heading marker is always returned unchanged — nothing is prepended, so
headings are never duplicated. -/
theorem addContextualHeaders_heading_context :
    (addContextualHeaders ["bar".toList] "## A\nfoo\n### B\nbar".toList =
      ["## A\n### B\n\nbar".toList]) ∧
    (∀ (chunks : List (List Char)) (text : List Char) (i : Nat) (c : List Char),
      chunks[i]? = some c →
      startsWithHeadingMarker (jsTrim c) = true →
      (addContextualHeaders chunks text)[i]? = some c) := by
  constructor
  · decide
  · intro chunks text i c hc hsw
    unfold addContextualHeaders
    by_cases hbig : 100000 < text.length ∨ 300 < chunks.length
    · rw [if_pos hbig]
      exact hc
    · rw [if_neg hbig]
      by_cases hhs : extractHeadings (normalizeText text) = []
      · rw [if_pos hhs]
        exact hc
      · rw [if_neg hhs]
        exact addCtxGo_heading_unchanged _ _ chunks 0 i c hc hsw

/-- **C9 witness**: a chunk that already starts with `## ` comes back
verbatim from the annotator. -/
theorem addContextualHeaders_heading_context_witness :
    (addContextualHeaders ["## A\nfoo".toList] "## A\nfoo\nbar".toList)[0]? =
      some "## A\nfoo".toList :=
  addContextualHeaders_heading_context.2 ["## A\nfoo".toList]
    "## A\nfoo\nbar".toList 0 "## A\nfoo".toList (by decide) (by decide)

/-!
## Hybrid Retriever (`hybrid_search_documents`)

Shallow embedding of the final `CREATE OR REPLACE FUNCTION
hybrid_search_documents` (the fix migration, which adds
`AND d.embedding IS NOT NULL` to both candidate CTEs).  The PostgreSQL
built-ins are oracle parameters: `cosineDistance` is pgvector's `<=>`,
`tsMatch` is `content_tsv @@ websearch_to_tsquery('simple', query_text)`,
`tsRank` is `ts_rank(content_tsv, websearch_to_tsquery('simple',
query_text))` (the `content_tsv` column is generated from `content` by
trigger, so both oracles take the content).  Scores are `Rat`.
-/

structure SearchDoc where
  id : Nat
  room_id : Option Nat
  content : List Char
  file_name : List Char
  embedding : Option (List Rat)
deriving DecidableEq

structure VRow where
  id : Nat
  content : List Char
  file_name : List Char
  similarity : Rat
deriving DecidableEq

structure ResultRow where
  id : Nat
  content : Option (List Char)
  file_name : Option (List Char)
  similarity : Rat
  keyword_rank : Rat
  combined_score : Rat
deriving DecidableEq

structure SqlOracle where
  cosineDistance : List Rat → List Rat → Rat
  tsMatch : List Char → List Char → Bool
  tsRank : List Char → List Char → Rat

/-- `(p_room_id IS NULL OR d.room_id = p_room_id)`; SQL three-valued logic
makes the comparison false when `d.room_id` is NULL and `p_room_id` is
not. -/
def roomMatch (p : Option Nat) (d : SearchDoc) : Bool :=
  match p with
  | none => true
  | some r => d.room_id = some r

/-- The `vector_search` CTE: every doc in scope with a non-null embedding,
with `similarity = 1 - (embedding <=> query_embedding)`. -/
def vectorSearch (O : SqlOracle) (docs : List SearchDoc)
    (query_embedding : List Rat) (p : Option Nat) : List VRow :=
  docs.filterMap (fun d =>
    match d.embedding with
    | some emb =>
      if roomMatch p d then
        some ⟨d.id, d.content, d.file_name, 1 - O.cosineDistance emb query_embedding⟩
      else none
    | none => none)

/-- The `keyword_search` CTE: docs in scope with a non-null embedding whose
lexical index matches the query, with `rank = ts_rank(...)`. -/
def keywordSearch (O : SqlOracle) (docs : List SearchDoc)
    (query_text : List Char) (p : Option Nat) : List (Nat × Rat) :=
  docs.filterMap (fun d =>
    match d.embedding with
    | some _ =>
      if roomMatch p d ∧ O.tsMatch d.content query_text then
        some (d.id, O.tsRank d.content query_text)
      else none
    | none => none)

/-- The `combined` CTE: `FULL OUTER JOIN` of the two candidate sets on `id`
(ids are primary keys, so lookup by key), with `COALESCE(_, 0)` for the
missing side and
`combined_score = similarity * vector_weight + keyword_rank * keyword_weight`. -/
def combinedRows (vs : List VRow) (ks : List (Nat × Rat))
    (vw kw : Rat) : List ResultRow :=
  (vs.map (fun v =>
    ⟨v.id, some v.content, some v.file_name, v.similarity,
      ((ks.find? (fun k => k.1 = v.id)).map Prod.snd).getD 0,
      v.similarity * vw +
        (((ks.find? (fun k => k.1 = v.id)).map Prod.snd).getD 0) * kw⟩)) ++
  ((ks.filter (fun k => ¬ vs.any (fun v => v.id = k.1))).map (fun k =>
    ⟨k.1, none, none, 0, k.2, 0 * vw + k.2 * kw⟩))

/-- `ORDER BY combined_score DESC`. -/
def scoreGe (a b : ResultRow) : Prop :=
  b.combined_score ≤ a.combined_score

instance : DecidableRel scoreGe := fun a b =>
  inferInstanceAs (Decidable (b.combined_score ≤ a.combined_score))

instance : IsTotal ResultRow scoreGe :=
  ⟨fun a b => by unfold scoreGe; exact le_total b.combined_score a.combined_score⟩

instance : IsTrans ResultRow scoreGe :=
  ⟨fun a b c hab hbc => by
    unfold scoreGe at hab hbc ⊢
    exact le_trans hbc hab⟩

def hybrid_search_documents (O : SqlOracle) (docs : List SearchDoc)
    (query_embedding : List Rat) (query_text : List Char)
    (match_threshold : Rat) (match_count : Nat) (p_room_id : Option Nat)
    (vector_weight keyword_weight : Rat) : List ResultRow :=
  (List.insertionSort scoreGe
    ((combinedRows (vectorSearch O docs query_embedding p_room_id)
        (keywordSearch O docs query_text p_room_id)
        vector_weight keyword_weight).filter
      (fun r => match_threshold < r.similarity ∨ 0 < r.keyword_rank))).take
    match_count

theorem mem_vectorSearch (O : SqlOracle) (docs : List SearchDoc)
    (qe : List Rat) (p : Option Nat) (v : VRow)
    (hv : v ∈ vectorSearch O docs qe p) :
    ∃ d ∈ docs, d.id = v.id ∧ d.embedding ≠ none := by
  unfold vectorSearch at hv
  rw [List.mem_filterMap] at hv
  obtain ⟨d, hd, hfd⟩ := hv
  refine ⟨d, hd, ?_, ?_⟩
  · cases hemb : d.embedding with
    | none => simp [hemb] at hfd
    | some emb =>
      simp only [hemb] at hfd
      by_cases hr : roomMatch p d = true
      · rw [if_pos hr] at hfd
        cases hfd; rfl
      · rw [if_neg hr] at hfd; simp at hfd
  · cases hemb : d.embedding with
    | none => simp [hemb] at hfd
    | some emb => simp [hemb]

theorem mem_keywordSearch (O : SqlOracle) (docs : List SearchDoc)
    (qt : List Char) (p : Option Nat) (k : Nat × Rat)
    (hk : k ∈ keywordSearch O docs qt p) :
    ∃ d ∈ docs, d.id = k.1 ∧ d.embedding ≠ none := by
  unfold keywordSearch at hk
  rw [List.mem_filterMap] at hk
  obtain ⟨d, hd, hfd⟩ := hk
  refine ⟨d, hd, ?_, ?_⟩
  · cases hemb : d.embedding with
    | none => simp [hemb] at hfd
    | some emb =>
      simp only [hemb] at hfd
      by_cases hr : roomMatch p d = true ∧ O.tsMatch d.content qt = true
      · rw [if_pos hr] at hfd
        cases hfd; rfl
      · rw [if_neg hr] at hfd; simp at hfd
  · cases hemb : d.embedding with
    | none => simp [hemb] at hfd
    | some emb => simp [hemb]

theorem mem_combinedRows (vs : List VRow) (ks : List (Nat × Rat))
    (vw kw : Rat) (r : ResultRow) (hr : r ∈ combinedRows vs ks vw kw) :
    (∃ v ∈ vs, v.id = r.id) ∨ (∃ k ∈ ks, k.1 = r.id) := by
  unfold combinedRows at hr
  rcases List.mem_append.mp hr with h | h
  · rw [List.mem_map] at h
    obtain ⟨v, hv, hvr⟩ := h
    exact Or.inl ⟨v, hv, by rw [← hvr]⟩
  · rw [List.mem_map] at h
    obtain ⟨k, hk, hkr⟩ := h
    exact Or.inr ⟨k, (List.mem_filter.mp hk).1, by rw [← hkr]⟩

theorem combinedRows_score (vs : List VRow) (ks : List (Nat × Rat))
    (vw kw : Rat) (r : ResultRow) (hr : r ∈ combinedRows vs ks vw kw) :
    r.combined_score = r.similarity * vw + r.keyword_rank * kw := by
  unfold combinedRows at hr
  rcases List.mem_append.mp hr with h | h
  · rw [List.mem_map] at h
    obtain ⟨v, _, hvr⟩ := h
    rw [← hvr]
  · rw [List.mem_map] at h
    obtain ⟨k, _, hkr⟩ := h
    rw [← hkr]

theorem mem_of_mem_hybrid (O : SqlOracle) (docs : List SearchDoc)
    (qe : List Rat) (qt : List Char) (mt : Rat) (mc : Nat)
    (p : Option Nat) (vw kw : Rat) (r : ResultRow)
    (hr : r ∈ hybrid_search_documents O docs qe qt mt mc p vw kw) :
    r ∈ (combinedRows (vectorSearch O docs qe p) (keywordSearch O docs qt p)
        vw kw).filter (fun r => mt < r.similarity ∨ 0 < r.keyword_rank) := by
  unfold hybrid_search_documents at hr
  have h₁ := List.take_subset _ _ hr
  exact (List.perm_insertionSort scoreGe _).subset h₁

/-- **C1**: every row returned by `hybrid_search_documents` comes from a
stored chunk whose embedding is non-null — a chunk still awaiting its
embedding never appears in the result, whatever its keyword rank. -/
theorem hybrid_search_no_null_embedding (O : SqlOracle)
    (docs : List SearchDoc) (qe : List Rat) (qt : List Char) (mt : Rat)
    (mc : Nat) (p : Option Nat) (vw kw : Rat) (r : ResultRow)
    (hr : r ∈ hybrid_search_documents O docs qe qt mt mc p vw kw) :
    ∃ d ∈ docs, d.id = r.id ∧ d.embedding ≠ none := by
  have hmem := mem_of_mem_hybrid O docs qe qt mt mc p vw kw r hr
  have hcomb := (List.mem_filter.mp hmem).1
  rcases mem_combinedRows _ _ vw kw r hcomb with ⟨v, hv, hvid⟩ | ⟨k, hk, hkid⟩
  · obtain ⟨d, hd, hid, hemb⟩ := mem_vectorSearch O docs qe p v hv
    exact ⟨d, hd, by rw [hid, hvid], hemb⟩
  · obtain ⟨d, hd, hid, hemb⟩ := mem_keywordSearch O docs qt p k hk
    exact ⟨d, hd, by rw [hid, hkid], hemb⟩

/-- **C2**: every returned row's `combined_score` is exactly
`similarity * vector_weight + keyword_rank * keyword_weight` (with `0` for
a side the chunk is absent from, via the `COALESCE`), rows are kept only
when `similarity > match_threshold` or `keyword_rank > 0`, and the output
is the first `match_count` rows of the filtered candidate union sorted in
descending `combined_score` order. -/
theorem hybrid_search_scoring (O : SqlOracle) (docs : List SearchDoc)
    (qe : List Rat) (qt : List Char) (mt : Rat) (mc : Nat)
    (p : Option Nat) (vw kw : Rat) :
    (∀ r ∈ hybrid_search_documents O docs qe qt mt mc p vw kw,
        r.combined_score = r.similarity * vw + r.keyword_rank * kw ∧
        (mt < r.similarity ∨ 0 < r.keyword_rank)) ∧
    List.Sorted scoreGe (hybrid_search_documents O docs qe qt mt mc p vw kw) ∧
    (hybrid_search_documents O docs qe qt mt mc p vw kw).length ≤ mc ∧
    (∃ all, all.Perm
        ((combinedRows (vectorSearch O docs qe p)
            (keywordSearch O docs qt p) vw kw).filter
          (fun r => mt < r.similarity ∨ 0 < r.keyword_rank)) ∧
      List.Sorted scoreGe all ∧
      hybrid_search_documents O docs qe qt mt mc p vw kw = all.take mc) := by
  refine ⟨?_, ?_, ?_, ?_⟩
  · intro r hr
    have hmem := mem_of_mem_hybrid O docs qe qt mt mc p vw kw r hr
    have hcond := (List.mem_filter.mp hmem).2
    refine ⟨combinedRows_score _ _ vw kw r (List.mem_filter.mp hmem).1, ?_⟩
    simpa using hcond
  · unfold hybrid_search_documents
    exact (List.sorted_insertionSort scoreGe _).sublist (List.take_sublist _ _)
  · unfold hybrid_search_documents
    exact List.length_take_le _ _
  · exact ⟨List.insertionSort scoreGe _, List.perm_insertionSort scoreGe _,
      List.sorted_insertionSort scoreGe _, rfl⟩

def sampleOracle : SqlOracle :=
  ⟨fun _ _ => 1/10, fun _ _ => false, fun _ _ => 0⟩

def sampleDocs : List SearchDoc :=
  [⟨1, some 7, "hello".toList, "f.txt".toList, some [1, 0]⟩,
   ⟨2, some 7, "pending".toList, "f.txt".toList, none⟩]

def sampleRow : ResultRow :=
  ⟨1, some "hello".toList, some "f.txt".toList, 9/10, 0, 27/50⟩

/-- Evaluation of the sample query: similarity `1 - 1/10 = 9/10` beats the
threshold `1/5`, the keyword side is empty, and the single surviving row
scores `9/10 * 3/5 + 0 * 2/5 = 27/50`. -/
theorem sampleSearch_eval :
    hybrid_search_documents sampleOracle sampleDocs [1, 0] "q".toList
      (1/5) 5 (some 7) (3/5) (2/5) = [sampleRow] := by
  unfold hybrid_search_documents vectorSearch keywordSearch combinedRows
    sampleOracle sampleDocs sampleRow roomMatch
  norm_num [List.filterMap, List.filter, List.insertionSort,
    List.orderedInsert, List.find?]

theorem sampleRow_mem :
    sampleRow ∈ hybrid_search_documents sampleOracle sampleDocs [1, 0]
      "q".toList (1/5) 5 (some 7) (3/5) (2/5) := by
  rw [sampleSearch_eval]
  exact List.mem_singleton_self _

/-- **C1 witness**: in a concrete store containing one embedded chunk and
one chunk with a null embedding, the returned row is backed by the embedded
chunk. -/
theorem hybrid_search_no_null_embedding_witness :
    ∃ d ∈ sampleDocs, d.id = sampleRow.id ∧ d.embedding ≠ none :=
  hybrid_search_no_null_embedding sampleOracle sampleDocs [1, 0] "q".toList
    (1/5) 5 (some 7) (3/5) (2/5) sampleRow sampleRow_mem

/-- **C2 witness**: a chunk present only in the vector candidates with
similarity `9/10` and `vector_weight = 3/5` (i.e. 0.9 and 0.6) gets
`combined_score` exactly `27/50` (i.e. 0.54) with zero keyword
contribution. -/
theorem hybrid_search_scoring_witness :
    sampleRow.combined_score = sampleRow.similarity * (3/5) +
      sampleRow.keyword_rank * (2/5) ∧
    ((1/5 : Rat) < sampleRow.similarity ∨ (0 : Rat) < sampleRow.keyword_rank) :=
  (hybrid_search_scoring sampleOracle sampleDocs [1, 0] "q".toList
    (1/5) 5 (some 7) (3/5) (2/5)).1 sampleRow sampleRow_mem

/-!
## Embedding Batch Processor (`process-embeddings` POST) and upload route

One invocation of the POST handler is a function from a database state (the
file record and its document rows) and an environment (the outcomes of the
external collaborators: room lookup, API-key decryption, text extraction,
chunk insert, document fetch, embedding provider) to a new database state
plus the HTTP outcome.  File-record updates are modelled as applied (the
source ignores their error results).  `logUsage` is modelled as never
failing.  The chunker is fuel-indexed, so an invocation whose chunking pass
does not terminate is `none`.
-/

inductive PStatus
  | pending
  | processing
  | completed
  | failed
deriving DecidableEq

structure FileRec where
  processing_status : PStatus
  chunk_count : Nat
  processed_chunks : Nat
  error_message : Option (List Char)
  file_data : Option (List Char)
  file_name : List Char
deriving DecidableEq

structure DocRec where
  id : Nat
  content : List Char
  embedding : Option (List Rat)
deriving DecidableEq

structure DbState where
  file : FileRec
  docs : List DocRec
  nextId : Nat
deriving DecidableEq

structure ProcEnv where
  roomOk : Bool
  decryptOk : Bool
  extractOk : Bool
  extractedText : List Char
  insertOk : Bool
  fetchOk : Bool
  embedOk : Bool
  embedErrMsg : List Char
  embedVec : Nat → List Rat

structure ProcResult where
  state : DbState
  ok : Bool
  embedCalls : Nat
deriving DecidableEq

def roomFailMsg : List Char := "ルームが見つかりませんでした".toList

def decryptFailMsg : List Char := "APIキーの復号化に失敗しました".toList

def extractFailMsg : List Char := "テキスト抽出に失敗しました".toList

def fullTextFailMsg : List Char := "全文テキストの取得に失敗しました".toList

def insertFailMsg : List Char := "チャンクドキュメントの保存に失敗しました".toList

def fetchFailMsg : List Char := "ドキュメントの取得に失敗しました".toList

/-- `update({ processing_status: 'failed', error_message: msg })`. -/
def failFile (s : DbState) (msg : List Char) : DbState :=
  { s with file := { s.file with
      processing_status := .failed, error_message := some msg } }

/-- The unconditional `update({ processing_status: 'processing' })` at the
start of an invocation. -/
def setProcessing (s : DbState) : DbState :=
  { s with file := { s.file with processing_status := .processing } }

/-- `update({ file_data: null })` after successful extraction. -/
def clearFileData (s : DbState) : DbState :=
  { s with file := { s.file with file_data := none } }

/-- The chunk documents inserted after chunking: one row per chunk, with
null embedding. -/
def mkChunkDocs (startId : Nat) (chunks : List (List Char)) : List DocRec :=
  chunks.enum.map (fun p => ⟨startId + p.1, p.2, none⟩)

/-- `select ... .eq('file_id', fileId).is('embedding', null).limit(BATCH_SIZE)`
with `BATCH_SIZE = 20`, in insertion order. -/
def pendingBatch (docs : List DocRec) : List DocRec :=
  (docs.filter (fun d => d.embedding.isNone)).take 20

/-- The per-document embedding updates: each document of the batch receives
the provider vector at its batch position (`embeddings[index].embedding`),
matched by document id. -/
def assignEmbeddings (docs batch : List DocRec)
    (vec : Nat → List Rat) : List DocRec :=
  docs.map (fun d =>
    match (batch.map DocRec.id).findIdx? (fun i => i = d.id) with
    | some i => { d with embedding := some (vec i) }
    | none => d)

/-- The first-call chunking phase (`chunk_count === 0`): split the extracted
text with `splitIntoChunks(fullText, 1000, 200)`, insert the chunk rows with
null embeddings, set `chunk_count` and keep status `processing`; no
embedding work happens in this call. -/
def chunkPhase (env : ProcEnv) (fuel : Nat) (s : DbState)
    (fullText : List Char) : Option ProcResult :=
  match splitIntoChunksCore fullText 1000 200 fuel with
  | none => none
  | some chunks =>
    if env.insertOk then
      some ⟨⟨{ s.file with
          chunk_count := chunks.length, processing_status := .processing },
        s.docs ++ mkChunkDocs s.nextId chunks,
        s.nextId + chunks.length⟩, true, 0⟩
    else some ⟨failFile s insertFailMsg, false, 0⟩

def processStep (fuel : Nat) (env : ProcEnv) (s : DbState) :
    Option ProcResult :=
  if s.file.processing_status = .completed then
    some ⟨s, true, 0⟩
  else if ¬ env.roomOk then
    some ⟨failFile (setProcessing s) roomFailMsg, false, 0⟩
  else if ¬ env.decryptOk then
    some ⟨failFile (setProcessing s) decryptFailMsg, false, 0⟩
  else if s.file.chunk_count = 0 then
    match s.file.file_data with
    | some _ =>
      if ¬ env.extractOk then
        some ⟨failFile (setProcessing s) extractFailMsg, false, 0⟩
      else chunkPhase env fuel (clearFileData (setProcessing s)) env.extractedText
    | none =>
      match s.docs with
      | [d] =>
        chunkPhase env fuel { setProcessing s with docs := [] } d.content
      | _ => some ⟨failFile (setProcessing s) fullTextFailMsg, false, 0⟩
  else if ¬ env.fetchOk then
    some ⟨failFile (setProcessing s) fetchFailMsg, false, 0⟩
  else if pendingBatch s.docs = [] then
    some ⟨{ s with file := { s.file with
        processing_status := .completed,
        processed_chunks := s.file.chunk_count } }, true, 0⟩
  else if ¬ env.embedOk then
    some ⟨failFile (setProcessing s) env.embedErrMsg, false, 1⟩
  else
    some ⟨⟨{ s.file with
        processed_chunks :=
          s.file.processed_chunks + (pendingBatch s.docs).length,
        processing_status :=
          if s.file.chunk_count ≤
              s.file.processed_chunks + (pendingBatch s.docs).length
          then .completed else .processing },
      assignEmbeddings s.docs (pendingBatch s.docs) env.embedVec,
      s.nextId⟩, true, 1⟩

/-- The record and document rows created by the upload route: the file is
inserted with `processing_status: 'pending'`, `chunk_count: chunks.length`,
`processed_chunks: 0`, and all chunk documents are inserted with null
embeddings.  The route rejects the upload when `chunks.length === 0`, so a
record is only created for a non-empty chunk list. -/
def uploadInit (chunks : List (List Char)) (fname : List Char)
    (startId : Nat) : DbState :=
  ⟨⟨.pending, chunks.length, 0, none, none, fname⟩,
    mkChunkDocs startId chunks, startId + chunks.length⟩

/-- States reachable from an upload followed by any sequence of
(non-concurrent) processor invocations with arbitrary collaborator
outcomes. -/
inductive Reachable : DbState → Prop
  | init (text : List Char) (fuel : Nat) (chunks : List (List Char))
      (fname : List Char) (startId : Nat)
      (hchunks : splitIntoChunksCore text 1000 200 fuel = some chunks)
      (hne : chunks ≠ []) : Reachable (uploadInit chunks fname startId)
  | step (s : DbState) (r : ProcResult) (fuel : Nat) (env : ProcEnv) :
      Reachable s → processStep fuel env s = some r → Reachable r.state

/-- Number of document rows still awaiting an embedding. -/
def nullCount (docs : List DocRec) : Nat :=
  (docs.filter (fun d => d.embedding.isNone)).length

/-- The inductive invariant of the file record over reachable states. -/
def FileInv (s : DbState) : Prop :=
  0 < s.file.chunk_count ∧
  s.file.processed_chunks + nullCount s.docs = s.file.chunk_count ∧
  (s.file.processing_status = .completed ↔
    s.file.processed_chunks = s.file.chunk_count) ∧
  (s.file.processing_status = .pending →
    s.file.processed_chunks = 0 ∧ s.file.error_message = none) ∧
  (s.docs.map DocRec.id).Nodup

/-!
## Claim C5: the first-call chunking phase

True part: on an invocation with `chunk_count == 0` the processor extracts,
chunks with `splitIntoChunks(fullText, 1000, 200)`, persists exactly those
chunks with null embeddings, sets `chunk_count`, sets status `processing`
and performs no embedding work.  False part: the processor never calls
`addContextualHeaders` — the persisted chunks are the raw chunker output,
which differs from the annotated chunks whenever annotation would apply.
-/

/-- **C5** (amended): a `chunk_count == 0` invocation with successful
collaborators persists exactly the chunks of
`splitIntoChunks(extractedText, 1000, 200)` — un-annotated — with null
embeddings, sets `chunk_count` to the produced count, sets status
`processing`, clears the binary payload, and performs no embedding-provider
call. -/
theorem processStep_chunkPhase (s : DbState) (env : ProcEnv) (fuel : Nat)
    (r : ProcResult) (chunks : List (List Char)) (bs : List Char)
    (hcc : s.file.chunk_count = 0)
    (hst : s.file.processing_status ≠ .completed)
    (hroom : env.roomOk = true) (hdec : env.decryptOk = true)
    (hext : env.extractOk = true) (hins : env.insertOk = true)
    (hfd : s.file.file_data = some bs)
    (hchunks : splitIntoChunksCore env.extractedText 1000 200 fuel = some chunks)
    (hstep : processStep fuel env s = some r) :
    r.state.docs = s.docs ++ mkChunkDocs s.nextId chunks ∧
    (mkChunkDocs s.nextId chunks).map DocRec.content = chunks ∧
    (∀ d ∈ mkChunkDocs s.nextId chunks, d.embedding = none) ∧
    r.state.file.chunk_count = chunks.length ∧
    r.state.file.processing_status = .processing ∧
    r.state.file.file_data = none ∧
    r.embedCalls = 0 ∧ r.ok = true := by
  unfold processStep at hstep
  rw [if_neg hst] at hstep
  rw [if_neg (by simp [hroom])] at hstep
  rw [if_neg (by simp [hdec])] at hstep
  rw [if_pos hcc] at hstep
  simp only [hfd] at hstep
  rw [if_neg (by simp [hext])] at hstep
  unfold chunkPhase at hstep
  simp only [hchunks] at hstep
  rw [if_pos hins] at hstep
  cases hstep
  refine ⟨rfl, ?_, ?_, rfl, rfl, rfl, rfl, rfl⟩
  · unfold mkChunkDocs
    rw [List.map_map]
    exact List.enum_map_snd chunks
  · intro d hd
    unfold mkChunkDocs at hd
    rw [List.mem_map] at hd
    obtain ⟨p, _, hp⟩ := hd
    rw [← hp]

def phaseAState : DbState :=
  ⟨⟨.pending, 0, 0, none, some "bytes".toList, "f".toList⟩, [], 0⟩

def phaseAEnv : ProcEnv :=
  ⟨true, true, true, "hello world".toList, true, true, true, [], fun _ => []⟩

/-- **C5 witness**: the concrete first invocation on a small file persists
its single raw chunk with a null embedding, sets `chunk_count := 1` and
status `processing`, and makes no provider call. -/
theorem processStep_chunkPhase_witness :
    (⟨⟨⟨.processing, 1, 0, none, none, "f".toList⟩,
        [⟨0, "hello world".toList, none⟩], 1⟩, true, 0⟩ : ProcResult).state.docs =
      phaseAState.docs ++ mkChunkDocs phaseAState.nextId ["hello world".toList] ∧
    (mkChunkDocs phaseAState.nextId ["hello world".toList]).map DocRec.content =
      ["hello world".toList] ∧
    (∀ d ∈ mkChunkDocs phaseAState.nextId ["hello world".toList],
      d.embedding = none) ∧
    (⟨⟨⟨.processing, 1, 0, none, none, "f".toList⟩,
        [⟨0, "hello world".toList, none⟩], 1⟩, true, 0⟩ : ProcResult).state.file.chunk_count =
      (["hello world".toList] : List (List Char)).length ∧
    (⟨⟨⟨.processing, 1, 0, none, none, "f".toList⟩,
        [⟨0, "hello world".toList, none⟩], 1⟩, true, 0⟩ : ProcResult).state.file.processing_status =
      .processing ∧
    (⟨⟨⟨.processing, 1, 0, none, none, "f".toList⟩,
        [⟨0, "hello world".toList, none⟩], 1⟩, true, 0⟩ : ProcResult).state.file.file_data = none ∧
    (⟨⟨⟨.processing, 1, 0, none, none, "f".toList⟩,
        [⟨0, "hello world".toList, none⟩], 1⟩, true, 0⟩ : ProcResult).embedCalls = 0 ∧
    (⟨⟨⟨.processing, 1, 0, none, none, "f".toList⟩,
        [⟨0, "hello world".toList, none⟩], 1⟩, true, 0⟩ : ProcResult).ok = true :=
  processStep_chunkPhase phaseAState phaseAEnv 0 _ ["hello world".toList]
    "bytes".toList rfl (by decide) rfl rfl rfl rfl rfl (by decide) (by decide)

def bigText : List Char :=
  "## A\n".toList ++ (List.replicate 400 "x.\n".toList).flatten

def bigChunks : List (List Char) :=
  (splitIntoChunksCore bigText 1000 200 50).getD []

def bigState : DbState :=
  ⟨⟨.pending, 0, 0, none, some [' '], "f".toList⟩, [], 0⟩

def bigEnv : ProcEnv :=
  ⟨true, true, true, bigText, true, true, true, [], fun _ => []⟩

set_option maxRecDepth 100000 in
/-- **C5** (counterexample): a first-call invocation on a document whose
chunking produces two chunks persists exactly the raw chunker output, and
that output is *not* what `addContextualHeaders` would produce — the second
chunk lies under the `## A` heading and annotation would prepend it, so the
claim that the processor annotates chunks before persisting them is false. -/
theorem processStep_persists_unannotated_chunks :
    (processStep 50 bigEnv bigState).map
        (fun r => r.state.docs.map DocRec.content) = some bigChunks ∧
    addContextualHeaders bigChunks bigText ≠ bigChunks ∧
    bigChunks.length = 2 := by
  refine ⟨by decide, by decide, by decide⟩

theorem findIdx?_none_of_not_mem (a : Nat) (l : List Nat) (st : Nat)
    (h : a ∉ l) : l.findIdx? (fun i => i = a) st = none := by
  induction l generalizing st with
  | nil => simp [List.findIdx?_nil]
  | cons b t ih =>
    rw [List.findIdx?_cons]
    have hba : ¬ (b = a) := fun hba => h (hba ▸ List.mem_cons_self b t)
    rw [if_neg (by simpa using hba)]
    exact ih (st + 1) (fun ht => h (List.mem_cons_of_mem b ht))

theorem findIdx?_isSome_of_mem (a : Nat) (l : List Nat) (st : Nat)
    (h : a ∈ l) : (l.findIdx? (fun i => i = a) st).isSome = true := by
  induction l generalizing st with
  | nil => simp at h
  | cons b t ih =>
    rw [List.findIdx?_cons]
    by_cases hba : b = a
    · rw [if_pos (by simpa using hba)]
      rfl
    · rw [if_neg (by simpa using hba)]
      have hat : a ∈ t := by
        rcases List.mem_cons.mp h with h' | h'
        · exact absurd h'.symm hba
        · exact h'
      exact ih (st + 1) hat

theorem assignEmbeddings_ids (docs batch : List DocRec)
    (vec : Nat → List Rat) :
    (assignEmbeddings docs batch vec).map DocRec.id = docs.map DocRec.id := by
  unfold assignEmbeddings
  rw [List.map_map]
  apply List.map_congr_left
  intro d _
  show DocRec.id (match (batch.map DocRec.id).findIdx? (fun i => i = d.id) with
    | some i => { d with embedding := some (vec i) }
    | none => d) = d.id
  cases h : (batch.map DocRec.id).findIdx? (fun i => i = d.id) with
  | none => simp only [h]
  | some i => simp only [h]

theorem assignEmbeddings_isNone (batch : List DocRec)
    (vec : Nat → List Rat) (d : DocRec) :
    (match (batch.map DocRec.id).findIdx? (fun i => i = d.id) with
      | some i => ({ d with embedding := some (vec i) } : DocRec)
      | none => d).embedding.isNone =
    (d.embedding.isNone && !(decide (d.id ∈ batch.map DocRec.id))) := by
  by_cases hmem : d.id ∈ batch.map DocRec.id
  · have hsome := findIdx?_isSome_of_mem d.id (batch.map DocRec.id) 0 hmem
    cases h : (batch.map DocRec.id).findIdx? (fun i => i = d.id) with
    | none =>
      rw [h] at hsome
      simp at hsome
    | some i =>
      simp only [h]
      simp [hmem]
  · rw [findIdx?_none_of_not_mem d.id (batch.map DocRec.id) 0 hmem]
    simp [hmem]

theorem countP_drop_of_nodup (F : List DocRec) (n : Nat)
    (hF : (F.map DocRec.id).Nodup) :
    List.countP
      (fun d => !(decide (d.id ∈ (F.take n).map DocRec.id))) F =
      (F.drop n).length := by
  have hdisj : ∀ r ∈ F.drop n, r.id ∉ (F.take n).map DocRec.id := by
    intro r hr hmem
    have hsplit : F.take n ++ F.drop n = F := List.take_append_drop n F
    have hnodup : ((F.take n).map DocRec.id ++
        (F.drop n).map DocRec.id).Nodup := by
      rw [← List.map_append, hsplit]
      exact hF
    exact (List.nodup_append.mp hnodup).2.2 hmem
      (List.mem_map_of_mem DocRec.id hr)
  have hsplit := List.countP_append
    (fun d => !(decide (d.id ∈ (F.take n).map DocRec.id))) (F.take n) (F.drop n)
  rw [List.take_append_drop] at hsplit
  rw [hsplit]
  have hb : List.countP
      (fun d => !(decide (d.id ∈ (F.take n).map DocRec.id))) (F.take n) = 0 := by
    rw [List.countP_eq_zero]
    intro a ha
    have hmem := List.mem_map_of_mem DocRec.id ha
    rw [decide_eq_true hmem]
    simp
  have hr : List.countP
      (fun d => !(decide (d.id ∈ (F.take n).map DocRec.id))) (F.drop n) =
      (F.drop n).length := by
    rw [List.countP_eq_length]
    intro a ha
    rw [decide_eq_false (hdisj a ha)]
    simp
  rw [hb, hr, Nat.zero_add]

/-- The batch-update sets exactly the batch's embeddings: the number of
null-embedding rows decreases by the batch size (document ids are
distinct). -/
theorem nullCount_assignEmbeddings (docs : List DocRec)
    (vec : Nat → List Rat) (hnd : (docs.map DocRec.id).Nodup) :
    nullCount (assignEmbeddings docs (pendingBatch docs) vec) +
      (pendingBatch docs).length = nullCount docs := by
  have hFnodup :
      ((docs.filter (fun d => d.embedding.isNone)).map DocRec.id).Nodup :=
    List.Nodup.sublist (List.Sublist.map DocRec.id (List.filter_sublist docs))
      hnd
  have h1 : nullCount (assignEmbeddings docs (pendingBatch docs) vec) =
      List.countP (fun d => d.embedding.isNone &&
        !(decide (d.id ∈ (pendingBatch docs).map DocRec.id))) docs := by
    unfold nullCount assignEmbeddings
    rw [← List.countP_eq_length_filter, List.countP_map]
    apply List.countP_congr
    intro d _
    rw [Function.comp_apply]
    rw [assignEmbeddings_isNone (pendingBatch docs) vec d]
  have h2 : List.countP (fun d => d.embedding.isNone &&
        !(decide (d.id ∈ (pendingBatch docs).map DocRec.id))) docs =
      List.countP
        (fun d => !(decide (d.id ∈ (pendingBatch docs).map DocRec.id)))
        (docs.filter (fun d => d.embedding.isNone)) := by
    rw [List.countP_filter]
    apply List.countP_congr
    intro d _
    rw [Bool.and_comm]
  have h3 := countP_drop_of_nodup (docs.filter (fun d => d.embedding.isNone))
    20 hFnodup
  have h4 : (pendingBatch docs).length +
      ((docs.filter (fun d => d.embedding.isNone)).drop 20).length =
      (docs.filter (fun d => d.embedding.isNone)).length := by
    unfold pendingBatch
    rw [← List.length_append, List.take_append_drop]
  have h5 : nullCount docs =
      (docs.filter (fun d => d.embedding.isNone)).length := rfl
  rw [h1, h2]
  unfold pendingBatch at *
  omega

theorem mkChunkDocs_nullCount (startId : Nat) (chunks : List (List Char)) :
    nullCount (mkChunkDocs startId chunks) = chunks.length := by
  unfold nullCount mkChunkDocs
  rw [List.filter_eq_self.mpr ?_]
  · rw [List.length_map, List.enum_length]
  · intro d hd
    rw [List.mem_map] at hd
    obtain ⟨p, _, hp⟩ := hd
    rw [← hp]
    rfl

theorem mkChunkDocs_ids_nodup (startId : Nat) (chunks : List (List Char)) :
    ((mkChunkDocs startId chunks).map DocRec.id).Nodup := by
  unfold mkChunkDocs
  rw [List.map_map]
  have hcomp : (DocRec.id ∘ fun p : Nat × List Char =>
      (⟨startId + p.1, p.2, none⟩ : DocRec)) =
      (fun i => startId + i) ∘ Prod.fst := rfl
  rw [hcomp, ← List.map_map, List.enum_map_fst]
  exact (List.nodup_range _).map (fun a b h => by omega)

theorem FileInv_fail (s : DbState) (msg : List Char)
    (hcc : 0 < s.file.chunk_count)
    (hcount : s.file.processed_chunks + nullCount s.docs = s.file.chunk_count)
    (hne : s.file.processed_chunks ≠ s.file.chunk_count)
    (hnd : (s.docs.map DocRec.id).Nodup) :
    FileInv (failFile (setProcessing s) msg) := by
  unfold FileInv failFile setProcessing
  refine ⟨hcc, hcount, ?_, ?_, hnd⟩
  · constructor
    · intro h
      exact absurd h (by simp)
    · intro h
      exact absurd h hne
  · intro h
    exact absurd h (by simp)

theorem FileInv_step (s : DbState) (r : ProcResult) (fuel : Nat)
    (env : ProcEnv) (hinv : FileInv s)
    (hstep : processStep fuel env s = some r) : FileInv r.state := by
  obtain ⟨hcc, hcount, hiff, hpend, hnd⟩ := hinv
  have hccne : s.file.chunk_count ≠ 0 := by omega
  unfold processStep at hstep
  by_cases h1 : s.file.processing_status = .completed
  · rw [if_pos h1] at hstep
    cases hstep
    exact ⟨hcc, hcount, hiff, hpend, hnd⟩
  rw [if_neg h1] at hstep
  have hne : s.file.processed_chunks ≠ s.file.chunk_count :=
    fun he => h1 (hiff.mpr he)
  by_cases h2 : ¬ env.roomOk = true
  · rw [if_pos h2] at hstep
    cases hstep
    exact FileInv_fail s roomFailMsg hcc hcount hne hnd
  rw [if_neg h2] at hstep
  by_cases h3 : ¬ env.decryptOk = true
  · rw [if_pos h3] at hstep
    cases hstep
    exact FileInv_fail s decryptFailMsg hcc hcount hne hnd
  rw [if_neg h3] at hstep
  rw [if_neg hccne] at hstep
  by_cases h4 : ¬ env.fetchOk = true
  · rw [if_pos h4] at hstep
    cases hstep
    exact FileInv_fail s fetchFailMsg hcc hcount hne hnd
  rw [if_neg h4] at hstep
  by_cases h5 : pendingBatch s.docs = []
  · rw [if_pos h5] at hstep
    cases hstep
    have hzero : nullCount s.docs = 0 := by
      unfold pendingBatch at h5
      rcases List.take_eq_nil_iff.mp h5 with h | h
      · omega
      · unfold nullCount
        rw [h]
        rfl
    unfold FileInv
    refine ⟨hcc, ?_, ?_, ?_, hnd⟩
    · show s.file.chunk_count + nullCount s.docs = s.file.chunk_count
      omega
    · exact ⟨fun _ => rfl, fun _ => rfl⟩
    · intro h
      exact PStatus.noConfusion h
  rw [if_neg h5] at hstep
  by_cases h6 : ¬ env.embedOk = true
  · rw [if_pos h6] at hstep
    cases hstep
    exact FileInv_fail s env.embedErrMsg hcc hcount hne hnd
  rw [if_neg h6] at hstep
  cases hstep
  have hcnt := nullCount_assignEmbeddings s.docs env.embedVec hnd
  unfold FileInv
  refine ⟨hcc, ?_, ?_, ?_, ?_⟩
  · show s.file.processed_chunks + (pendingBatch s.docs).length +
      nullCount (assignEmbeddings s.docs (pendingBatch s.docs) env.embedVec) =
      s.file.chunk_count
    omega
  · show (if s.file.chunk_count ≤
        s.file.processed_chunks + (pendingBatch s.docs).length
        then PStatus.completed else PStatus.processing) = .completed ↔
      s.file.processed_chunks + (pendingBatch s.docs).length =
        s.file.chunk_count
    by_cases hle : s.file.chunk_count ≤
        s.file.processed_chunks + (pendingBatch s.docs).length
    · rw [if_pos hle]
      exact ⟨fun _ => by omega, fun _ => rfl⟩
    · rw [if_neg hle]
      constructor
      · intro h
        exact PStatus.noConfusion h
      · intro h
        omega
  · show (if s.file.chunk_count ≤
        s.file.processed_chunks + (pendingBatch s.docs).length
        then PStatus.completed else PStatus.processing) = .pending →
      s.file.processed_chunks + (pendingBatch s.docs).length = 0 ∧
        s.file.error_message = none
    by_cases hle : s.file.chunk_count ≤
        s.file.processed_chunks + (pendingBatch s.docs).length
    · rw [if_pos hle]
      intro h
      exact PStatus.noConfusion h
    · rw [if_neg hle]
      intro h
      exact PStatus.noConfusion h
  · show ((assignEmbeddings s.docs (pendingBatch s.docs)
        env.embedVec).map DocRec.id).Nodup
    rw [assignEmbeddings_ids]
    exact hnd

theorem reachable_FileInv (s : DbState) (h : Reachable s) : FileInv s := by
  induction h with
  | init text fuel chunks fname startId hchunks hne =>
    have hpos : 0 < chunks.length := List.length_pos.mpr hne
    unfold FileInv uploadInit
    refine ⟨hpos, ?_, ?_, ?_, ?_⟩
    · show 0 + nullCount (mkChunkDocs startId chunks) = chunks.length
      rw [mkChunkDocs_nullCount]
      omega
    · constructor
      · intro h
        exact PStatus.noConfusion h
      · intro h
        exfalso
        have : (0 : Nat) = chunks.length := h
        omega
    · intro _
      exact ⟨rfl, rfl⟩
    · exact mkChunkDocs_ids_nodup startId chunks
  | step s r fuel env _ hstep ih => exact FileInv_step s r fuel env ih hstep

/-!
## Claims C3 and C4: SourceFile record invariants
-/

/-- **C3** (amended): in every reachable state — after creation on upload
and after every processor invocation — `processed_chunks ≤ chunk_count`;
the status is `completed` iff `processed_chunks = chunk_count` and
`chunk_count > 0`; and a `pending` record has `processed_chunks = 0`, no
failure recorded, and `chunk_count` *already set to the produced chunk
count* (which is positive) — `pending` does not coincide with
`chunk_count == 0`, because the upload route assigns `chunk_count` at
creation. -/
theorem sourceFile_state_invariant (s : DbState) (hreach : Reachable s) :
    s.file.processed_chunks ≤ s.file.chunk_count ∧
    (s.file.processing_status = .completed ↔
      (s.file.processed_chunks = s.file.chunk_count ∧
        0 < s.file.chunk_count)) ∧
    (s.file.processing_status = .pending →
      s.file.processed_chunks = 0 ∧ 0 < s.file.chunk_count ∧
        s.file.error_message = none) := by
  obtain ⟨hcc, hcount, hiff, hpend, _⟩ := reachable_FileInv s hreach
  refine ⟨by omega, ?_, ?_⟩
  · constructor
    · intro h
      exact ⟨hiff.mp h, hcc⟩
    · intro h
      exact hiff.mpr h.1
  · intro h
    obtain ⟨h0, hm⟩ := hpend h
    exact ⟨h0, hcc, hm⟩

def sampleUpload : DbState := uploadInit ["hello".toList] "f".toList 0

theorem sampleUpload_reachable : Reachable sampleUpload :=
  Reachable.init "hello".toList 1 ["hello".toList] "f".toList 0
    (by decide) (by decide)

/-- **C3** (counterexample): the record created by the upload route is
`pending` with no failure recorded, yet its `chunk_count` is already
non-zero — refuting "status is pending iff `chunk_count == 0` and no
failure has been recorded". -/
theorem uploaded_pending_with_nonzero_chunkCount :
    Reachable sampleUpload ∧
    sampleUpload.file.processing_status = .pending ∧
    sampleUpload.file.error_message = none ∧
    sampleUpload.file.chunk_count ≠ 0 :=
  ⟨sampleUpload_reachable, rfl, rfl, by decide⟩

/-- **C3 witness**: the invariant instantiated at the concrete uploaded
state. -/
theorem sourceFile_state_invariant_witness :
    sampleUpload.file.processed_chunks ≤ sampleUpload.file.chunk_count ∧
    (sampleUpload.file.processing_status = .completed ↔
      (sampleUpload.file.processed_chunks = sampleUpload.file.chunk_count ∧
        0 < sampleUpload.file.chunk_count)) ∧
    (sampleUpload.file.processing_status = .pending →
      sampleUpload.file.processed_chunks = 0 ∧
        0 < sampleUpload.file.chunk_count ∧
        sampleUpload.file.error_message = none) :=
  sourceFile_state_invariant sampleUpload sampleUpload_reachable

/-- **C4** (amended): across processor invocations on a reachable state,
`processed_chunks` never decreases and `chunk_count` never changes; the
single assignment of `chunk_count` happens at upload creation (see the
counterexample), not at a pending→processing chunking step. -/
theorem processed_monotone_chunkCount_stable (s : DbState) (r : ProcResult)
    (fuel : Nat) (env : ProcEnv) (hreach : Reachable s)
    (hstep : processStep fuel env s = some r) :
    s.file.processed_chunks ≤ r.state.file.processed_chunks ∧
    r.state.file.chunk_count = s.file.chunk_count := by
  obtain ⟨hcc, hcount, hiff, hpend, hnd⟩ := reachable_FileInv s hreach
  have hccne : s.file.chunk_count ≠ 0 := by omega
  unfold processStep at hstep
  by_cases h1 : s.file.processing_status = .completed
  · rw [if_pos h1] at hstep
    cases hstep
    exact ⟨le_refl _, rfl⟩
  rw [if_neg h1] at hstep
  by_cases h2 : ¬ env.roomOk = true
  · rw [if_pos h2] at hstep
    cases hstep
    exact ⟨le_refl _, rfl⟩
  rw [if_neg h2] at hstep
  by_cases h3 : ¬ env.decryptOk = true
  · rw [if_pos h3] at hstep
    cases hstep
    exact ⟨le_refl _, rfl⟩
  rw [if_neg h3] at hstep
  rw [if_neg hccne] at hstep
  by_cases h4 : ¬ env.fetchOk = true
  · rw [if_pos h4] at hstep
    cases hstep
    exact ⟨le_refl _, rfl⟩
  rw [if_neg h4] at hstep
  by_cases h5 : pendingBatch s.docs = []
  · rw [if_pos h5] at hstep
    cases hstep
    refine ⟨?_, rfl⟩
    show s.file.processed_chunks ≤ s.file.chunk_count
    omega
  rw [if_neg h5] at hstep
  by_cases h6 : ¬ env.embedOk = true
  · rw [if_pos h6] at hstep
    cases hstep
    exact ⟨le_refl _, rfl⟩
  rw [if_neg h6] at hstep
  cases hstep
  refine ⟨?_, rfl⟩
  show s.file.processed_chunks ≤
    s.file.processed_chunks + (pendingBatch s.docs).length
  omega

def sampleUpload2 : DbState := uploadInit ["hola!".toList] "g".toList 0

def goodEnv : ProcEnv :=
  ⟨true, true, true, [], true, true, true, [], fun _ => []⟩

theorem sampleUpload2_reachable : Reachable sampleUpload2 :=
  Reachable.init "hola!".toList 1 ["hola!".toList] "g".toList 0
    (by decide) (by decide)

/-- **C4** (counterexample): the upload-created record is still `pending`
— no processor invocation, hence no pending→processing chunking step, has
happened — yet `chunk_count` is already `1`; and the first invocation goes
straight to embedding work (one provider call, no chunking), leaving
`chunk_count` unchanged.  So `chunk_count` is assigned at creation, not at
the pending→processing chunking step. -/
theorem chunkCount_assigned_at_creation :
    Reachable sampleUpload2 ∧
    sampleUpload2.file.processing_status = .pending ∧
    sampleUpload2.file.chunk_count = 1 ∧
    (processStep 5 goodEnv sampleUpload2).map
      (fun r => (r.state.file.chunk_count, r.embedCalls)) = some (1, 1) :=
  ⟨sampleUpload2_reachable, rfl, rfl, by decide⟩

def batchStepResult : ProcResult :=
  ⟨⟨⟨.completed, 1, 1, none, none, "g".toList⟩,
    [⟨0, "hola!".toList, some []⟩], 1⟩, true, 1⟩

/-- **C4 witness**: monotonicity and `chunk_count`-stability at the
concrete first invocation. -/
theorem processed_monotone_chunkCount_stable_witness :
    sampleUpload2.file.processed_chunks ≤
      batchStepResult.state.file.processed_chunks ∧
    batchStepResult.state.file.chunk_count =
      sampleUpload2.file.chunk_count :=
  processed_monotone_chunkCount_stable sampleUpload2 batchStepResult 5
    goodEnv sampleUpload2_reachable (by decide)

/-!
## Claim C7: unrecoverable errors are recorded on the file record
-/

/-- **C7**: whenever an invocation hits a text-extraction failure, an
embedding-provider failure, or a persistence failure on the chunk insert,
it sets the file's `processing_status` to `failed` and stores a
human-readable `error_message` on the record, returns an error response
(the failure is recorded rather than leaving the record unfailed), and the
invocation itself performs no further work — extraction and persistence
failures make no provider call at all, and a provider failure makes exactly
the one failed call, with no automatic retry. -/
theorem processor_failures_recorded :
    (∀ (s : DbState) (env : ProcEnv) (fuel : Nat) (bs : List Char)
        (r : ProcResult),
      s.file.processing_status ≠ .completed → env.roomOk = true →
      env.decryptOk = true → s.file.chunk_count = 0 →
      s.file.file_data = some bs → env.extractOk = false →
      processStep fuel env s = some r →
      r.state.file.processing_status = .failed ∧
      r.state.file.error_message = some extractFailMsg ∧
      extractFailMsg ≠ [] ∧ r.ok = false ∧ r.embedCalls = 0) ∧
    (∀ (s : DbState) (env : ProcEnv) (fuel : Nat) (r : ProcResult),
      s.file.processing_status ≠ .completed → env.roomOk = true →
      env.decryptOk = true → s.file.chunk_count ≠ 0 → env.fetchOk = true →
      pendingBatch s.docs ≠ [] → env.embedOk = false →
      processStep fuel env s = some r →
      r.state.file.processing_status = .failed ∧
      r.state.file.error_message = some env.embedErrMsg ∧
      r.ok = false ∧ r.embedCalls = 1) ∧
    (∀ (s : DbState) (env : ProcEnv) (fuel : Nat) (bs : List Char)
        (chunks : List (List Char)) (r : ProcResult),
      s.file.processing_status ≠ .completed → env.roomOk = true →
      env.decryptOk = true → s.file.chunk_count = 0 →
      s.file.file_data = some bs → env.extractOk = true →
      splitIntoChunksCore env.extractedText 1000 200 fuel = some chunks →
      env.insertOk = false →
      processStep fuel env s = some r →
      r.state.file.processing_status = .failed ∧
      r.state.file.error_message = some insertFailMsg ∧
      insertFailMsg ≠ [] ∧ r.ok = false ∧ r.embedCalls = 0) := by
  refine ⟨?_, ?_, ?_⟩
  · intro s env fuel bs r hst hroom hdec hcc hfd hext hstep
    unfold processStep at hstep
    rw [if_neg hst, if_neg (by simp [hroom]), if_neg (by simp [hdec]),
      if_pos hcc] at hstep
    simp only [hfd] at hstep
    rw [if_pos (by simp [hext])] at hstep
    cases hstep
    exact ⟨rfl, rfl, by decide, rfl, rfl⟩
  · intro s env fuel r hst hroom hdec hcc hfetch hpend hembed hstep
    unfold processStep at hstep
    rw [if_neg hst, if_neg (by simp [hroom]), if_neg (by simp [hdec]),
      if_neg hcc, if_neg (by simp [hfetch]), if_neg hpend,
      if_pos (by simp [hembed])] at hstep
    cases hstep
    exact ⟨rfl, rfl, rfl, rfl⟩
  · intro s env fuel bs chunks r hst hroom hdec hcc hfd hext hchunks hins
      hstep
    unfold processStep at hstep
    rw [if_neg hst, if_neg (by simp [hroom]), if_neg (by simp [hdec]),
      if_pos hcc] at hstep
    simp only [hfd] at hstep
    rw [if_neg (by simp [hext])] at hstep
    unfold chunkPhase at hstep
    simp only [hchunks] at hstep
    rw [if_neg (by simp [hins])] at hstep
    cases hstep
    exact ⟨rfl, rfl, by decide, rfl, rfl⟩

def extractFailEnv : ProcEnv :=
  ⟨true, true, false, [], true, true, true, [], fun _ => []⟩

/-- **C7 witness**: a concrete extraction failure marks the file `failed`
with the extraction error message stored, no provider call made. -/
theorem processor_failures_recorded_witness :
    (⟨failFile (setProcessing phaseAState) extractFailMsg, false,
        0⟩ : ProcResult).state.file.processing_status = .failed ∧
    (⟨failFile (setProcessing phaseAState) extractFailMsg, false,
        0⟩ : ProcResult).state.file.error_message = some extractFailMsg ∧
    extractFailMsg ≠ [] ∧
    (⟨failFile (setProcessing phaseAState) extractFailMsg, false,
        0⟩ : ProcResult).ok = false ∧
    (⟨failFile (setProcessing phaseAState) extractFailMsg, false,
        0⟩ : ProcResult).embedCalls = 0 :=
  processor_failures_recorded.1 phaseAState extractFailEnv 0 "bytes".toList
    ⟨failFile (setProcessing phaseAState) extractFailMsg, false, 0⟩
    (by decide) rfl rfl rfl rfl rfl (by decide)
